import Mathlib

/-!
# Verification of the betterrank structural code-indexing engine

A shallow embedding of the core of the `betterrank` code-indexing engine
(graph builder, reference disambiguation, incremental update, ranker
post-processing, query error handling, outline rendering, cache naming),
together with proofs and refutations of the specification's claims.

Modelling conventions:

* The graphology `MultiDirectedGraph` is modelled as an association list of
  nodes (id, attribute record) plus a list of edges; `mergeNode` merges the
  provided attribute keys over the existing record, `addEdge` appends.
  JavaScript objects with optional keys become records of `Option` fields.
* JavaScript numbers are modelled as exact rationals (`ℚ`).
* File paths are relative paths as produced by the cache walker; such paths
  never contain a NUL character (forbidden by every file system) and, in this
  development, no `:` character, so that file node ids never collide with
  symbol node ids of the form `file ++ "::" ++ name` and the `\0`-separated
  dedup keys decode uniquely.  The predicate `goodFile` captures this and
  appears as a hypothesis of the general theorems.
* The PageRank computation of `graphology-metrics` is an external numeric
  collaborator; it is passed as an opaque parameter wherever the code calls
  it, and claims about ranking quantify over its output.
-/

/-- `s` contains `sub` as a substring (JavaScript `String.prototype.includes`). -/
def strIncludes (s sub : String) : Bool :=
  decide (sub.data <:+: s.data)

/-- JavaScript `s.startsWith(pre)`, on character lists. -/
def strStartsWith (s pre : String) : Bool :=
  decide (pre.data <+: s.data)

/-- Well-formed relative file path: no NUL byte (impossible in any file
system) and no `:` (so the `file` and `file::name` id spaces are disjoint). -/
def goodFile (s : String) : Prop :=
  ':' ∉ s.data ∧ Char.ofNat 0 ∉ s.data

instance (s : String) : Decidable (goodFile s) := by
  unfold goodFile; infer_instance

/-- Node attribute record; absent JavaScript object keys are `none`. -/
structure Attrs where
  type : Option String := none
  symbolCount : Option Nat := none
  kind : Option String := none
  name : Option String := none
  file : Option String := none
  lineStart : Option Nat := none
  lineEnd : Option Nat := none
  signature : Option String := none
deriving Repr, DecidableEq

/-- `graph.mergeNode` attribute semantics: keys present in the update
(`some`) overwrite, absent keys (`none`) keep the old value. -/
def mergeAttrs (old upd : Attrs) : Attrs where
  type := upd.type <|> old.type
  symbolCount := upd.symbolCount <|> old.symbolCount
  kind := upd.kind <|> old.kind
  name := upd.name <|> old.name
  file := upd.file <|> old.file
  lineStart := upd.lineStart <|> old.lineStart
  lineEnd := upd.lineEnd <|> old.lineEnd
  signature := upd.signature <|> old.signature

/-- A directed edge with its attribute record (`{type}` for builder edges,
`{weight}` for the ranker's focus edges). -/
structure Edge where
  src : String
  tgt : String
  type : Option String := none
  weight : Option ℚ := none
deriving Repr, DecidableEq

/-- The multi-directed graph: association list of nodes in insertion order
(at most one entry per id) plus edges in insertion order (parallel edges
allowed, as in `MultiDirectedGraph`). -/
structure Graph where
  nodes : List (String × Attrs)
  edges : List Edge
deriving Repr, DecidableEq

def Graph.empty : Graph := ⟨[], []⟩

def Graph.getAttrs (g : Graph) (id : String) : Option Attrs :=
  (g.nodes.find? (fun p => p.1 == id)).map (fun p => p.2)

def Graph.hasNode (g : Graph) (id : String) : Bool :=
  (g.nodes.find? (fun p => p.1 == id)).isSome

/-- `graph.getNodeAttribute(id, 'file')`; `none` when the node or the
attribute is absent. -/
def Graph.fileAttr (g : Graph) (id : String) : Option String :=
  (g.getAttrs id).bind (fun a => a.file)

/-- `graph.getNodeAttribute(id, 'type')`. -/
def Graph.typeAttr (g : Graph) (id : String) : Option String :=
  (g.getAttrs id).bind (fun a => a.type)

def Graph.mergeNode (g : Graph) (id : String) (upd : Attrs) : Graph :=
  if g.hasNode id then
    { g with
        nodes := g.nodes.map
          (fun p => if p.1 == id then (p.1, mergeAttrs p.2 upd) else p) }
  else
    { g with nodes := g.nodes ++ [(id, upd)] }

/-- `graph.addEdge(src, tgt, {type})`. -/
def Graph.addTypedEdge (g : Graph) (src tgt ty : String) : Graph :=
  { g with edges := g.edges ++ [{ src := src, tgt := tgt, type := some ty }] }

/-- `graph.addEdge(src, tgt, {weight})` (ranker focus edges). -/
def Graph.addWeightedEdge (g : Graph) (src tgt : String) (w : ℚ) : Graph :=
  { g with edges := g.edges ++ [{ src := src, tgt := tgt, weight := some w }] }

/-- `removeFileNodes(graph, filePath)`: drop the file node and every node
whose `file` attribute equals the path, with all incident edges. -/
def Graph.dropFileNodes (g : Graph) (p : String) : Graph :=
  let dropped := (g.nodes.filter
    (fun q => q.1 == p || q.2.file == some p)).map (fun q => q.1)
  { nodes := g.nodes.filter (fun q => !(q.1 == p || q.2.file == some p)),
    edges := g.edges.filter
      (fun e => !(dropped.contains e.src) && !(dropped.contains e.tgt)) }

/-! ## Parsed symbol data (`parser.js` output shape) -/

/-- One definition as pushed by `parseFile` (`parser.js`).  Note that
`parseFile` sets no `bodyStartLine` key on definitions. -/
structure Defn where
  name : String
  kind : String
  lineStart : Nat
  lineEnd : Nat
  signature : String
deriving Repr, DecidableEq

structure Ref where
  name : String
  line : Nat
deriving Repr, DecidableEq

structure FileSymbols where
  file : String
  definitions : List Defn
  references : List Ref
deriving Repr, DecidableEq

/-- Every record's file path is a well-formed relative path. -/
def WfInput (X : List FileSymbols) : Prop :=
  ∀ fs ∈ X, goodFile fs.file

instance (X : List FileSymbols) : Decidable (WfInput X) := by
  unfold WfInput; infer_instance

/-! ## Graph builder (`graph.js`) -/

def AMBIGUITY_CAP : Nat := 5

def symbolKey (file nm : String) : String := file ++ "::" ++ nm

def fileAttrsP (symbolCount : Nat) : Attrs :=
  { type := some "file", symbolCount := some symbolCount }

def symbolAttrsP (d : Defn) (file : String) : Attrs :=
  { type := some "symbol", kind := some d.kind, name := some d.name,
    file := some file, lineStart := some d.lineStart,
    lineEnd := some d.lineEnd, signature := some d.signature }

/-- `disambiguateTargets(targets, sourceFile, graph)`. -/
def disambiguateTargets (targets : List String) (sourceFile : String)
    (g : Graph) : List String :=
  if targets.length == 1 then targets
  else
    let sameFile := targets.filter (fun t => g.fileAttr t == some sourceFile)
    if sameFile.length > 0 then sameFile
    else if targets.length > AMBIGUITY_CAP then []
    else targets

/-- One iteration of the definitions loop of `buildGraph`. -/
def addDefNode (file : String) (g : Graph) (d : Defn) : Graph :=
  (g.mergeNode (symbolKey file d.name) (symbolAttrsP d file)).addTypedEdge
    file (symbolKey file d.name) "DEFINES"

/-- File-record step of `buildGraph`'s first loop. -/
def addFileRecord (g : Graph) (fs : FileSymbols) : Graph :=
  fs.definitions.foldl (addDefNode fs.file)
    (g.mergeNode fs.file (fileAttrsP fs.definitions.length))

def defsPhase (X : List FileSymbols) : Graph :=
  X.foldl addFileRecord Graph.empty

/-- The name index: association list `name -> [symbolKey, ...]` in push
order (a `Map` of arrays in the source). -/
def indexAdd (idx : List (String × List String)) (nm key : String) :
    List (String × List String) :=
  if (idx.find? (fun p => p.1 == nm)).isSome then
    idx.map (fun p => if p.1 == nm then (p.1, p.2 ++ [key]) else p)
  else idx ++ [(nm, [key])]

def indexLookup (idx : List (String × List String)) (nm : String) :
    Option (List String) :=
  (idx.find? (fun p => p.1 == nm)).map (fun p => p.2)

def buildDefIndex (X : List FileSymbols) : List (String × List String) :=
  X.foldl (fun idx fs => fs.definitions.foldl
    (fun idx d => indexAdd idx d.name (symbolKey fs.file d.name)) idx) []

/-- Dedup keys `${file}\0${target}`. -/
def refKey (file target : String) : String :=
  file ++ String.mk [Char.ofNat 0] ++ target

/-- Wiring state: the graph plus the two per-call dedup sets. -/
structure WireState where
  graph : Graph
  addedRefs : List String
  addedImports : List String
deriving Repr, DecidableEq

/-- Body of the `for (const target of resolvedTargets)` loop.  The builder
only wires targets that are symbol nodes carrying a `file` attribute; when
that attribute is (unreachably) absent the graphology call would fail, and
we mirror the reference edge alone. -/
def wireTarget (file : String) (st : WireState) (target : String) : WireState :=
  match st.graph.fileAttr target with
  | some targetFile =>
    let st1 :=
      if st.addedRefs.contains (refKey file target) then st
      else { st with
              graph := st.graph.addTypedEdge file target "REFERENCES",
              addedRefs := st.addedRefs ++ [refKey file target] }
    if targetFile ≠ file then
      if st1.addedImports.contains (refKey file targetFile) then st1
      else { st1 with
              graph := st1.graph.addTypedEdge file targetFile "IMPORTS",
              addedImports := st1.addedImports ++ [refKey file targetFile] }
    else st1
  | none =>
    if st.addedRefs.contains (refKey file target) then st
    else { st with
            graph := st.graph.addTypedEdge file target "REFERENCES",
            addedRefs := st.addedRefs ++ [refKey file target] }

/-- Body of the `for (const ref of references)` loop. -/
def wireRef (idx : List (String × List String)) (file : String)
    (st : WireState) (r : Ref) : WireState :=
  match indexLookup idx r.name with
  | none => st
  | some targets =>
    (disambiguateTargets targets file st.graph).foldl (wireTarget file) st

def wireRecord (idx : List (String × List String)) (st : WireState)
    (fs : FileSymbols) : WireState :=
  fs.references.foldl (wireRef idx fs.file) st

/-- `buildGraph(allSymbols)`. -/
def buildGraph (X : List FileSymbols) : Graph :=
  (X.foldl (wireRecord (buildDefIndex X)) ⟨defsPhase X, [], []⟩).graph

/-- Rebuild the name index from the surviving graph
(`graph.forEachNode` loop of `updateGraphFiles`). -/
def graphDefIndex (g : Graph) : List (String × List String) :=
  g.nodes.foldl (fun idx p =>
    if p.2.type == some "symbol" then
      match p.2.name with
      | some nm => indexAdd idx nm p.1
      | none => idx
    else idx) []

/-- One record of the `for (const {file, definitions, references} of
newSymbols)` loop of `updateGraphFiles`: merge the file node, merge each
definition (pushing its key into the shared index), then wire references
against the index as it stands. -/
def updateRecord (acc : WireState × List (String × List String))
    (fs : FileSymbols) : WireState × List (String × List String) :=
  let st := acc.1
  let g1 := st.graph.mergeNode fs.file (fileAttrsP fs.definitions.length)
  let gi := fs.definitions.foldl
    (fun (gi : Graph × List (String × List String)) d =>
      ((gi.1.mergeNode (symbolKey fs.file d.name)
          (symbolAttrsP d fs.file)).addTypedEdge
        fs.file (symbolKey fs.file d.name) "DEFINES",
       indexAdd gi.2 d.name (symbolKey fs.file d.name)))
    (g1, acc.2)
  (fs.references.foldl (wireRef gi.2 fs.file) { st with graph := gi.1 }, gi.2)

/-- `updateGraphFiles(graph, removedFiles, newSymbols)`. -/
def updateGraphFiles (g : Graph) (removedFiles : List String)
    (newSymbols : List FileSymbols) : Graph :=
  let g1 := removedFiles.foldl Graph.dropFileNodes g
  (newSymbols.foldl updateRecord (⟨g1, [], []⟩, graphDefIndex g1)).1.graph

/-! ## Ranker (`graph.js`, path tiers and score post-processing)

JavaScript numbers are modelled as exact rationals, so the default tier
weights `0.1`, `0.2`, `0.3` become `1/10`, `1/5`, `3/10`. -/

structure PathTier where
  pattern : String
  weight : ℚ
deriving Repr, DecidableEq

def DEFAULT_PATH_TIERS : List PathTier :=
  [⟨"temp_qa/", 1/10⟩, ⟨"qa/temp_", 1/10⟩, ⟨"qa/", 1/5⟩, ⟨"tests/", 1/5⟩,
   ⟨"test/", 1/5⟩, ⟨"scripts/", 3/10⟩, ⟨"deploy/", 3/10⟩]

/-- `filePath.startsWith(pattern) || filePath.includes('/' + pattern)`. -/
def tierMatches (filePath : String) (t : PathTier) : Bool :=
  strStartsWith filePath t.pattern || strIncludes filePath ("/" ++ t.pattern)

/-- `getPathWeight(filePath, pathTiers)`: weight of the first matching tier,
default `1.0`. -/
def getPathWeight (filePath : String) (tiers : List PathTier) : ℚ :=
  match tiers with
  | [] => 1
  | t :: rest => if tierMatches filePath t then t.weight else getPathWeight filePath rest

/-- Stable insertion step of a descending sort by key `f` (ties keep the
earlier element first, as JavaScript's stable `Array.prototype.sort` with
comparator `(a, b) => f(b) - f(a)`). -/
def insertDescOn (f : α → ℚ) (x : α) : List α → List α
  | [] => [x]
  | y :: ys => if f x > f y then x :: y :: ys else y :: insertDescOn f x ys

def sortDescOn (f : α → ℚ) (l : List α) : List α :=
  l.foldl (fun acc x => insertDescOn f x acc) []

/-- The `.map` step of `rankedSymbols`: multiply a symbol's score by the
path weight of its file; a missing `file` attribute raises inside the
`try`, leaving the score unchanged. -/
def dampenEntry (g : Graph) (tiers : List PathTier) (kv : String × ℚ) :
    String × ℚ :=
  match g.fileAttr kv.1 with
  | some f => (kv.1, kv.2 * getPathWeight f tiers)
  | none => kv

/-- The post-PageRank pipeline of `rankedSymbols`: keep scores of `symbol`
nodes of the authoritative graph, dampen by path tier, sort descending. -/
def rankedScores (g : Graph) (scores : List (String × ℚ))
    (tiers : List PathTier) : List (String × ℚ) :=
  sortDescOn (fun kv => kv.2)
    ((scores.filter (fun kv => g.typeAttr kv.1 == some "symbol")).map
      (dampenEntry g tiers))

/-- `graph.copy()`: in this value-semantics embedding a copy is the value
itself; mutations of the copy are modelled by rebinding, never touching the
input. -/
def graphCopy (g : Graph) : Graph := g

/-- The working copy built by `rankedSymbols`: the copy, plus the virtual
`__focus__` node and its weighted edges when focus files are given. -/
def focusedWorking (graph : Graph) (focusFiles : List String) : Graph :=
  let g := graphCopy graph
  if focusFiles.length > 0 then
    focusFiles.foldl
      (fun gg f => if gg.hasNode f then gg.addWeightedEdge "__focus__" f 10 else gg)
      (g.mergeNode "__focus__" { type := some "virtual" })
  else g

/-- `rankedSymbols(graph, focusFiles, pathTiers)` with the PageRank solver
passed as an opaque parameter `pr`.  Returns the ranked list together with
the authoritative graph as it stands after the call. -/
def rankedSymbolsRun (pr : Graph → List (String × ℚ)) (graph : Graph)
    (focusFiles : List String) (tiers : List PathTier) :
    List (String × ℚ) × Graph :=
  if graph.nodes.length == 0 then ([], graph)
  else
    let g := focusedWorking graph focusFiles
    let scores := pr g
    let scores := scores.filter (fun kv => kv.1 != "__focus__")
    (rankedScores graph scores tiers, graph)

/-! ## Outline (`outline.js`) -/

/-- A definition as consumed by `outlineMode`.  `parseFile` (`parser.js`)
pushes definitions with `name`, `kind`, `file`, `lineStart`, `lineEnd` and
`signature` keys only, so on parser output the `bodyStartLine` key is
always absent (`none`). -/
structure OutlineDef where
  name : String
  lineStart : Nat
  lineEnd : Nat
  bodyStartLine : Option Nat := none
deriving Repr, DecidableEq

def MIN_COLLAPSE_LINES : Nat := 2

/-- A definition is a container when some other definition starts strictly
inside it and ends no later.  (The source also skips `other === def`; that
check is redundant because `other.lineStart > def.lineStart` is strict.) -/
def isContainer (defs : List OutlineDef) (d : OutlineDef) : Bool :=
  defs.any (fun o =>
    decide (o.lineStart > d.lineStart) && decide (o.lineEnd ≤ d.lineEnd))

structure CollapseRange where
  start : Nat
  stop : Nat
  lineCount : Nat
deriving Repr, DecidableEq

/-- Stable ascending insertion by key `f` (comparator `(a, b) => f(a) - f(b)`). -/
def insertAscOn (f : α → Nat) (x : α) : List α → List α
  | [] => [x]
  | y :: ys => if f x < f y then x :: y :: ys else y :: insertAscOn f x ys

def sortAscOn (f : α → Nat) (l : List α) : List α :=
  l.foldl (fun acc x => insertAscOn f x acc) []

/-- The collapse-range construction of `outlineMode`.  `!def.bodyStartLine`
skips both an absent key and the (never produced) value `0`. -/
def collapseRangesOf (defs : List OutlineDef) : List CollapseRange :=
  sortAscOn (fun r => r.start)
    (defs.filterMap (fun d =>
      if isContainer defs d then none
      else
        match d.bodyStartLine with
        | none => none
        | some b =>
          if b == 0 then none
          else if b > d.lineEnd then none
          else
            let c := d.lineEnd - b + 1
            if c < MIN_COLLAPSE_LINES then none
            else some ⟨b, d.lineEnd, c⟩))

def spacesStr (n : Nat) : String := String.mk (List.replicate n ' ')

/-- `String(x).padStart(pad)`. -/
def padLeft (s : String) (n : Nat) : String := spacesStr (n - s.length) ++ s

def numberedLine (pad lineNum : Nat) (content : String) : String :=
  padLeft (toString lineNum) pad ++ "│ " ++ content

/-- Leading whitespace of a line (`line.match(/^\s*​/)[0]`). -/
def leadingWS (l : String) : String :=
  String.mk (l.data.takeWhile Char.isWhitespace)

/-- The `while (lineNum <= lines.length)` walk of `outlineMode`.  The loop
is modelled with an explicit iteration budget; every iteration either
consumes a collapse range or advances `lineNum`, so
`(ranges + 1) * (lines + 2)` iterations are never exhausted. -/
def renderOutline (lines : List String) (pad : Nat) :
    Nat → List CollapseRange → Nat → List String
  | 0, _, _ => []
  | fuel + 1, ranges, lineNum =>
    if lineNum ≤ lines.length then
      match ranges with
      | r :: rest =>
        if r.start == lineNum then
          let bodyLine := (lines.get? (lineNum - 1)).getD ""
          let indent := if bodyLine == "" then "" else leadingWS bodyLine
          (spacesStr pad ++ "│ " ++ indent ++ "... (" ++ toString r.lineCount
              ++ " lines)")
            :: renderOutline lines pad fuel rest (r.stop + 1)
        else
          numberedLine pad lineNum ((lines.get? (lineNum - 1)).getD "")
            :: renderOutline lines pad fuel (r :: rest) (lineNum + 1)
      | [] =>
        numberedLine pad lineNum ((lines.get? (lineNum - 1)).getD "")
          :: renderOutline lines pad fuel [] (lineNum + 1)
    else []

/-- `outlineMode(lines, defs, pad)`. -/
def outlineMode (lines : List String) (defs : List OutlineDef) (pad : Nat) :
    List String :=
  let ranges := collapseRangesOf defs
  renderOutline lines pad ((ranges.length + 1) * (lines.length + 2)) ranges 1

/-- `rawView(lines, pad)`: the uncollapsed line-numbered rendering. -/
def rawViewLines (lines : List String) (pad : Nat) : List String :=
  lines.enum.map (fun p => numberedLine pad (p.1 + 1) p.2)

/-- A three-line source file whose single definition spans all three
lines: a leaf definition with a two-line body (lines 2–3). -/
def c6lines : List String := ["def f():", "  x = 1", "  return x"]

/-- The matching definition record exactly as `parseFile` produces it:
`name`, `lineStart`, `lineEnd` are set, `bodyStartLine` is absent. -/
def c6defs : List OutlineDef := [⟨"f", 1, 3, none⟩]

/-! ## Query engine error handling (`index.js`) -/

/-- `path.basename` for the relative slash-separated paths stored as file
node ids. -/
def pathBasename (p : String) : String :=
  String.mk ((p.data.reverse.takeWhile (fun c => !(c == '/'))).reverse)

/-- JavaScript `s.toLowerCase()`, character by character. -/
def strToLower (s : String) : String := String.mk (s.data.map Char.toLower)

/-- The match predicate of `findSimilarFiles`: exact lower-cased basename,
basename containment, or full-path containment. -/
def similarMatch (filePath node : String) : Bool :=
  let baseLower := strToLower (pathBasename filePath)
  let pathLower := strToLower filePath
  let nodeLower := strToLower node
  let nodeBase := strToLower (pathBasename node)
  nodeBase == baseLower || strIncludes nodeBase baseLower ||
    strIncludes nodeLower pathLower

/-- `findSimilarFiles(graph, filePath, maxSuggestions = 5)`. -/
def findSimilarFiles (g : Graph) (filePath : String) (maxSuggestions : Nat) :
    List String :=
  ((g.nodes.filter (fun p => p.2.type == some "file" && similarMatch filePath p.1)).map
    (fun p => p.1)).take maxSuggestions

/-- `paginate(arr, {offset, limit}).items`. -/
def paginateItems (arr : List α) (offset limit : Option Nat) : List α :=
  let start := offset.getD 0
  match limit with
  | some l => (arr.drop start).take l
  | none => arr.drop start

/-- JavaScript `Set` insertion-order deduplication. -/
def dedupKeepFirst (l : List String) : List String :=
  l.foldl (fun acc x => if acc.contains x then acc else acc ++ [x]) []

/-- `scoresMap.get(f) || 0`. -/
def lookupScore (scores : List (String × ℚ)) (f : String) : ℚ :=
  ((scores.find? (fun p => p.1 == f)).map (fun p => p.2)).getD 0

/-- Return shape of `dependencies` / `dependents`: a bare items array, a
`{total}` object, or the `fileNotFound` error objects; absent keys are
`none`. -/
structure DepOut where
  items : Option (List String) := none
  total : Option Nat := none
  fileNotFound : Option Bool := none
  suggestions : Option (List String) := none
deriving Repr, DecidableEq

/-- `dependencies({file, offset, limit, count})`, reading the post-`ensure`
graph and the session file-score map. -/
def dependencies (g : Graph) (fileScores : List (String × ℚ)) (file : String)
    (offset limit : Option Nat) (count : Bool) : DepOut :=
  if !g.hasNode file then
    let suggestions := findSimilarFiles g file 5
    if count then
      { total := some 0, fileNotFound := some true,
        suggestions := some suggestions }
    else
      { items := some [], fileNotFound := some true,
        suggestions := some suggestions }
  else
    let deps := dedupKeepFirst
      (((g.edges.filter (fun e => e.src == file && e.type == some "IMPORTS")).map
        (fun e => e.tgt)).filter (fun t => g.typeAttr t == some "file"))
    let sorted := sortDescOn (lookupScore fileScores) deps
    if count then { total := some sorted.length }
    else { items := some (paginateItems sorted offset limit) }

/-- `dependents({file, offset, limit, count})`. -/
def dependents (g : Graph) (fileScores : List (String × ℚ)) (file : String)
    (offset limit : Option Nat) (count : Bool) : DepOut :=
  if !g.hasNode file then
    let suggestions := findSimilarFiles g file 5
    if count then
      { total := some 0, fileNotFound := some true,
        suggestions := some suggestions }
    else
      { items := some [], fileNotFound := some true,
        suggestions := some suggestions }
  else
    let deps := dedupKeepFirst
      (((g.edges.filter (fun e => e.tgt == file && e.type == some "IMPORTS")).map
        (fun e => e.src)).filter (fun s => g.typeAttr s == some "file"))
    let sorted := sortDescOn (lookupScore fileScores) deps
    if count then { total := some sorted.length }
    else { items := some (paginateItems sorted offset limit) }

/-- Symbol entry pushed by `neighborhood`. -/
structure NSym where
  name : Option String := none
  kind : Option String := none
  file : Option String := none
  lineStart : Option Nat := none
  signature : Option String := none
deriving Repr, DecidableEq

/-- Edge entry pushed by `neighborhood` (`{source, target, type: 'IMPORTS'}`). -/
structure NEdge where
  source : String
  target : String
  type : String
deriving Repr, DecidableEq

/-- Return shape of `neighborhood`; absent keys are `none`. -/
structure NeighOut where
  files : Option (List String) := none
  symbols : Option (List NSym) := none
  edges : Option (List NEdge) := none
  total : Option Nat := none
  totalFiles : Option Nat := none
  totalSymbols : Option Nat := none
  totalEdges : Option Nat := none
  totalVisited : Option Nat := none
  fileNotFound : Option Bool := none
  suggestions : Option (List String) := none
deriving Repr, DecidableEq

/-- Outgoing `IMPORTS` neighbours of `node` that are file nodes, in edge
insertion order (the body of the BFS `forEachOutEdge` callback). -/
def outFileTargets (g : Graph) (node : String) : List String :=
  ((g.edges.filter (fun e => e.src == node && e.type == some "IMPORTS")).map
    (fun e => e.tgt)).filter (fun t => g.typeAttr t == some "file")

/-- Incoming `IMPORTS` neighbours of `file` that are file nodes. -/
def inFileSources (g : Graph) (file : String) : List String :=
  ((g.edges.filter (fun e => e.tgt == file && e.type == some "IMPORTS")).map
    (fun e => e.src)).filter (fun s => g.typeAttr s == some "file")

def hopsLookup (fileHops : List (String × Nat)) (f : String) : Option Nat :=
  (fileHops.find? (fun p => p.1 == f)).map (fun p => p.2)

/-- The `while (queue.length > 0)` BFS of `neighborhood`, with an explicit
iteration budget: every iteration shifts the queue, and the number of
enqueues is bounded by the discovered nodes, so the budget chosen by
`neighborhood` is never exhausted. -/
def bfsLoop (g : Graph) (hops : Nat) :
    Nat → List (String × Nat) → List (String × Nat) → List (String × Nat)
  | 0, fileHops, _ => fileHops
  | _ + 1, fileHops, [] => fileHops
  | fuel + 1, fileHops, (node, depth) :: queue =>
    if depth ≥ hops then bfsLoop g hops fuel fileHops queue
    else
      let step := (outFileTargets g node).foldl
        (fun (acc : List (String × Nat) × List (String × Nat)) t =>
          if (acc.1.find? (fun p => p.1 == t)).isSome then acc
          else (acc.1 ++ [(t, depth + 1)], acc.2 ++ [(t, depth + 1)]))
        (fileHops, queue)
      bfsLoop g hops fuel step.1 step.2

/-- Scored file entry (`{file, score, isDirect}`). -/
structure FileScore where
  file : String
  score : ℚ
  isDirect : Bool
deriving Repr, DecidableEq

/-- Sum of PageRank scores of the symbols a file defines
(`prMap.get(target) || 0` over `DEFINES` out-edges). -/
def filePRSum (g : Graph) (ranked : List (String × ℚ)) (f : String) : ℚ :=
  ((g.edges.filter (fun e => e.src == f && e.type == some "DEFINES")).map
    (fun e => lookupScore ranked e.tgt)).foldl (· + ·) 0

def edgeKey (s t : String) : String := s ++ "->" ++ t

/-- `neighborhood({file, hops, includeDependents, maxFiles, count, offset,
limit})`, with the focus-biased ranked list passed in for
`this._getRanked([file])`. -/
def neighborhood (g : Graph) (ranked : List (String × ℚ)) (file : String)
    (hops : Nat) (includeDependents : Bool) (maxFiles : Nat)
    (count : Bool) (offset limit : Option Nat) : NeighOut :=
  if !g.hasNode file then
    let suggestions := findSimilarFiles g file 5
    if count then
      { totalFiles := some 0, totalSymbols := some 0, totalEdges := some 0,
        fileNotFound := some true, suggestions := some suggestions }
    else
      { files := some [], symbols := some [], edges := some [],
        fileNotFound := some true, suggestions := some suggestions }
  else
    let fileHops := bfsLoop g hops (g.nodes.length + g.edges.length + 2)
      [(file, 0)] [(file, 0)]
    let dd := if includeDependents then
        (inFileSources g file).foldl
          (fun (acc : List String × List (String × Nat)) s =>
            (if acc.1.contains s then acc.1 else acc.1 ++ [s],
             if (acc.2.find? (fun p => p.1 == s)).isSome then acc.2
             else acc.2 ++ [(s, 1)]))
          ([], fileHops)
      else ([], fileHops)
    let fileHops := dd.2
    let directFiles := dedupKeepFirst
      ([file] ++
        (g.edges.filter (fun e => e.src == file && e.type == some "IMPORTS")).map
          (fun e => e.tgt) ++
        dd.1)
    let allVisited := fileHops.map (fun p => p.1)
    let fileScored := allVisited.map (fun f =>
      let isDirect := directFiles.contains f
      let hopDist : ℚ :=
        match hopsLookup fileHops f with
        | none => 99
        | some 0 => 99
        | some (v + 1) => ((v : ℚ) + 1)
      { file := f,
        score := (if isDirect then 1000000 else 0) +
          filePRSum g ranked f * 10000 - hopDist,
        isDirect := isDirect : FileScore })
    let sorted := sortDescOn (fun e => e.score) fileScored
    let capped := sorted.foldl
      (fun (acc : List String) e =>
        if e.isDirect || decide (acc.length < maxFiles) then acc ++ [e.file]
        else acc) []
    let eOut := (g.edges.filter
        (fun e => e.src == file && e.type == some "IMPORTS")).foldl
      (fun (acc : List String × List NEdge) e =>
        if capped.contains e.tgt then
          if acc.1.contains (edgeKey e.src e.tgt) then acc
          else (acc.1 ++ [edgeKey e.src e.tgt],
                acc.2 ++ [⟨e.src, e.tgt, "IMPORTS"⟩])
        else acc) ([], [])
    let eAll := (g.edges.filter
        (fun e => e.tgt == file && e.type == some "IMPORTS")).foldl
      (fun (acc : List String × List NEdge) e =>
        if capped.contains e.src then
          if acc.1.contains (edgeKey e.src file) then acc
          else (acc.1 ++ [edgeKey e.src file],
                acc.2 ++ [⟨e.src, file, "IMPORTS"⟩])
        else acc) eOut
    let edges := eAll.2
    let symbols := ranked.foldl
      (fun (acc : List NSym) kv =>
        match g.getAttrs kv.1 with
        | none => acc
        | some a =>
          if a.type == some "symbol" then
            match a.file with
            | some f =>
              if capped.contains f then
                acc ++ [{ name := a.name, kind := a.kind, file := a.file,
                          lineStart := a.lineStart, signature := a.signature }]
              else acc
            | none => acc
          else acc) []
    if count then
      { totalFiles := some capped.length, totalSymbols := some symbols.length,
        totalEdges := some edges.length,
        totalVisited := some allVisited.length }
    else
      let paginatedFiles := paginateItems capped offset limit
      let paginatedSymbols := symbols.filter (fun s =>
        match s.file with
        | some f => paginatedFiles.contains f
        | none => false)
      let paginatedEdges := edges.filter (fun e =>
        paginatedFiles.contains e.source || paginatedFiles.contains e.target)
      { files := some paginatedFiles, symbols := some paginatedSymbols,
        edges := some paginatedEdges, total := some capped.length }

/-! ## Cache file naming (`cache.js`)

`createHash('sha256').update(root).digest('hex')` is the crypto
collaborator; it is passed as an opaque hex-digest function, and
`join(CACHE_DIR, name)` as slash concatenation. -/

/-- `cachePathForRoot(projectRoot)`. -/
def cachePathForRoot (digestHex : String → String)
    (cacheDir projectRoot : String) : String :=
  cacheDir ++ "/" ++ (digestHex projectRoot).take 12 ++ ".json"

/-! ## Concrete inputs used by the demonstrations and witnesses -/

/-- Previous inputs: file `q` references `f`, file `p` defines `f`. -/
def c2prev : List FileSymbols :=
  [⟨"q", [], [⟨"f", 1⟩]⟩, ⟨"p", [⟨"f", "function", 1, 2, "function f()"⟩], []⟩]

/-- A fresh parse of `p`, identical to its previous record. -/
def c2fresh : FileSymbols := ⟨"p", [⟨"f", "function", 1, 2, "function f()"⟩], []⟩

/-- A record whose definitions sequence contains the name `f` twice. -/
def c3rec : FileSymbols :=
  ⟨"a", [⟨"f", "function", 1, 2, "function f()"⟩,
         ⟨"f", "function", 3, 4, "function f(x)"⟩], []⟩

/-- One file whose definitions sequence contains the name `f` twice. -/
def c3dup : List FileSymbols := [c3rec]

/-- Two files: `a` defines `f`, `b` references it. -/
def c4simple : List FileSymbols :=
  [⟨"a", [⟨"f", "function", 1, 2, "function f()"⟩], []⟩,
   ⟨"b", [], [⟨"f", 3⟩]⟩]

/-- A sha256 hex digest fixture: the digest of `/home/user/project`. -/
def sampleDigestHex : String → String := fun root =>
  if root == "/home/user/project" then
    "9dad1e4e08b0b11cbcd860257e8bdfa6b8e5f01790e10a6a0b1f4870c13e686b"
  else ""

/-! ## General lemmas -/

set_option maxRecDepth 8000

theorem foldl_preserve {α σ : Type _} {P : σ → Prop} {f : σ → α → σ} :
    ∀ (l : List α) (s : σ), (∀ s a, a ∈ l → P s → P (f s a)) → P s →
      P (l.foldl f s) := by
  intro l
  induction l with
  | nil => intro s _ hs; simpa using hs
  | cons a as ih =>
    intro s hstep hs
    simp only [List.foldl_cons]
    exact ih _ (fun s' b hb => hstep s' b (List.mem_cons_of_mem _ hb))
      (hstep s a (List.mem_cons_self _ _) hs)

/-- A character `c` that occurs in neither prefix splits a concatenation
uniquely: first-occurrence decoding of separator-encoded strings. -/
theorem sep_inj (c : Char) :
    ∀ (a b x y : List Char), c ∉ a → c ∉ b →
      a ++ c :: x = b ++ c :: y → a = b ∧ x = y := by
  intro a
  induction a with
  | nil =>
    intro b x y _ hb h
    cases b with
    | nil => simpa using h
    | cons d bs =>
      simp only [List.nil_append, List.cons_append, List.cons.injEq] at h
      exact absurd (h.1 ▸ List.mem_cons_self d bs) hb
  | cons d as ih =>
    intro b x y ha hb h
    cases b with
    | nil =>
      simp only [List.cons_append, List.nil_append, List.cons.injEq] at h
      exact absurd (h.1 ▸ List.mem_cons_self d as) ha
    | cons e bs =>
      simp only [List.cons_append, List.cons.injEq] at h
      obtain ⟨rfl, h2⟩ := h
      have hr := ih bs x y (fun hm => ha (List.mem_cons_of_mem _ hm))
        (fun hm => hb (List.mem_cons_of_mem _ hm)) h2
      exact ⟨by rw [hr.1], hr.2⟩

theorem string_eq_of_data (s t : String) (h : s.data = t.data) : s = t := by
  cases s; cases t; exact congrArg String.mk h

theorem symbolKey_data (f n : String) :
    (symbolKey f n).data = f.data ++ ':' :: ':' :: n.data := by
  simp [symbolKey, String.data_append]

theorem goodFile_ne_symbolKey {p f n : String} (hp : goodFile p) :
    p ≠ symbolKey f n := by
  intro h
  apply hp.1
  rw [h, symbolKey_data]
  exact List.mem_append_right _ (List.mem_cons_self _ _)

theorem symbolKey_inj {f f' n n' : String} (hf : ':' ∉ f.data)
    (hf' : ':' ∉ f'.data) (h : symbolKey f n = symbolKey f' n') :
    f = f' ∧ n = n' := by
  have hd : f.data ++ ':' :: (':' :: n.data) = f'.data ++ ':' :: (':' :: n'.data) := by
    have := congrArg String.data h
    simpa [symbolKey_data] using this
  obtain ⟨h1, h2⟩ := sep_inj ':' f.data f'.data _ _ hf hf' hd
  refine ⟨string_eq_of_data _ _ h1, string_eq_of_data _ _ ?_⟩
  simpa using h2

theorem symbolKey_name_inj {f a b : String}
    (h : symbolKey f a = symbolKey f b) : a = b := by
  have hd := congrArg String.data h
  rw [symbolKey_data, symbolKey_data] at hd
  have := List.append_cancel_left hd
  simp only [List.cons.injEq, true_and] at this
  exact string_eq_of_data _ _ this

theorem refKey_data (f t : String) :
    (refKey f t).data = f.data ++ Char.ofNat 0 :: t.data := by
  simp [refKey, String.data_append]

theorem refKey_inj {f f' t t' : String} (hf : Char.ofNat 0 ∉ f.data)
    (hf' : Char.ofNat 0 ∉ f'.data) (h : refKey f t = refKey f' t') :
    f = f' ∧ t = t' := by
  have hd : f.data ++ Char.ofNat 0 :: t.data =
      f'.data ++ Char.ofNat 0 :: t'.data := by
    have := congrArg String.data h
    simpa [refKey_data] using this
  obtain ⟨h1, h2⟩ := sep_inj (Char.ofNat 0) f.data f'.data _ _ hf hf' hd
  exact ⟨string_eq_of_data _ _ h1, string_eq_of_data _ _ h2⟩

/-! ## Graph operation lemmas -/

theorem edges_mergeNode (g : Graph) (id : String) (u : Attrs) :
    (g.mergeNode id u).edges = g.edges := by
  unfold Graph.mergeNode
  split <;> rfl

theorem nodes_addTypedEdge (g : Graph) (s t ty : String) :
    (g.addTypedEdge s t ty).nodes = g.nodes := rfl

theorem edges_addTypedEdge (g : Graph) (s t ty : String) :
    (g.addTypedEdge s t ty).edges =
      g.edges ++ [{ src := s, tgt := t, type := some ty }] := rfl

theorem getAttrs_addTypedEdge (g : Graph) (s t ty id : String) :
    (g.addTypedEdge s t ty).getAttrs id = g.getAttrs id := rfl

theorem fileAttr_addTypedEdge (g : Graph) (s t ty id : String) :
    (g.addTypedEdge s t ty).fileAttr id = g.fileAttr id := rfl

theorem typeAttr_addTypedEdge (g : Graph) (s t ty id : String) :
    (g.addTypedEdge s t ty).typeAttr id = g.typeAttr id := rfl

theorem getAttrs_mergeNode (g : Graph) (id : String) (u : Attrs) (id' : String) :
    (g.mergeNode id u).getAttrs id' =
      if id' = id then
        some (match g.getAttrs id with
              | some a => mergeAttrs a u
              | none => u)
      else g.getAttrs id' := by
  unfold Graph.mergeNode
  by_cases hs : g.hasNode id
  · simp only [hs, if_true]
    show ((g.nodes.map
        (fun p => if p.1 == id then (p.1, mergeAttrs p.2 u) else p)).find?
          (fun p => p.1 == id')).map (fun p => p.2) = _
    rw [List.find?_map]
    have hpres : ((fun (p : String × Attrs) => p.1 == id') ∘
        (fun (p : String × Attrs) => if p.1 == id then (p.1, mergeAttrs p.2 u) else p)) =
        (fun (p : String × Attrs) => p.1 == id') := by
      funext p
      simp only [Function.comp_apply]
      split <;> rfl
    rw [hpres]
    by_cases hid : id' = id
    · subst hid
      unfold Graph.hasNode at hs
      obtain ⟨a, ha⟩ := Option.isSome_iff_exists.mp hs
      have hpa := List.find?_some ha
      unfold Graph.getAttrs
      simp [ha, Option.map_map, Function.comp, eq_of_beq hpa]
    · simp only [if_neg hid]
      unfold Graph.getAttrs
      cases hfind : g.nodes.find? (fun p => p.1 == id') with
      | none => simp [hfind]
      | some b =>
        have hpb := List.find?_some hfind
        have hb1 : b.1 = id' := by simpa using hpb
        have hbid : (b.1 == id) = false := by
          simp [hb1]
          exact fun h => hid (h ▸ rfl)
        simp [hfind, Function.comp, hbid]
        rw [if_neg (by rw [hb1]; exact hid)]
  · simp only [hs, if_false]
    show ((g.nodes ++ [(id, u)]).find? (fun p => p.1 == id')).map (fun p => p.2) = _
    rw [List.find?_append]
    unfold Graph.hasNode at hs
    have hnone : g.nodes.find? (fun p => p.1 == id) = none := by
      cases hh : g.nodes.find? (fun p => p.1 == id) with
      | none => rfl
      | some a => rw [hh] at hs; simp at hs
    by_cases hid : id' = id
    · subst hid
      unfold Graph.getAttrs
      simp [hnone]
    · unfold Graph.getAttrs
      have hne : ((id, u).1 == id') = false := by
        simp
        exact fun h => hid h.symm
      cases hh : g.nodes.find? (fun p => p.1 == id') with
      | none => simp [hh, List.find?, hne, hid]
      | some a => simp [hh, hid]

theorem getAttrs_mergeNode_self (g : Graph) (id : String) (u : Attrs) :
    (g.mergeNode id u).getAttrs id =
      some (match g.getAttrs id with
            | some a => mergeAttrs a u
            | none => u) := by
  rw [getAttrs_mergeNode]; simp

theorem getAttrs_mergeNode_ne (g : Graph) (id : String) (u : Attrs)
    (id' : String) (h : id' ≠ id) :
    (g.mergeNode id u).getAttrs id' = g.getAttrs id' := by
  rw [getAttrs_mergeNode]; simp [h]

theorem fileAttr_mergeNode_fileAttrsP (g : Graph) (id : String) (n : Nat)
    (id' : String) :
    (g.mergeNode id (fileAttrsP n)).fileAttr id' = g.fileAttr id' := by
  unfold Graph.fileAttr
  rw [getAttrs_mergeNode]
  by_cases hid : id' = id
  · subst hid
    cases h : g.getAttrs id' with
    | none => simp [h, fileAttrsP]
    | some a => simp [h, mergeAttrs, fileAttrsP]
  · simp [hid]

theorem fileAttr_mergeNode_symbolAttrsP_self (g : Graph) (k : String)
    (d : Defn) (f : String) :
    (g.mergeNode k (symbolAttrsP d f)).fileAttr k = some f := by
  unfold Graph.fileAttr
  rw [getAttrs_mergeNode_self]
  cases h : g.getAttrs k with
  | none => simp [symbolAttrsP]
  | some a => simp [mergeAttrs, symbolAttrsP]

theorem fileAttr_mergeNode_ne (g : Graph) (id : String) (u : Attrs)
    (id' : String) (h : id' ≠ id) :
    (g.mergeNode id u).fileAttr id' = g.fileAttr id' := by
  unfold Graph.fileAttr
  rw [getAttrs_mergeNode_ne _ _ _ _ h]

/-! ## Wiring-step lemmas -/

/-- Soundness of the `addedRefs` dedup set: a recorded key means the
corresponding `REFERENCES` edge is in the graph. -/
def RefSound (st : WireState) : Prop :=
  ∀ f t : String, Char.ofNat 0 ∉ f.data → refKey f t ∈ st.addedRefs →
    ({ src := f, tgt := t, type := some "REFERENCES" } : Edge) ∈ st.graph.edges

/-- Soundness of the `addedImports` dedup set. -/
def ImpSound (st : WireState) : Prop :=
  ∀ f t : String, Char.ofNat 0 ∉ f.data → refKey f t ∈ st.addedImports →
    ({ src := f, tgt := t, type := some "IMPORTS" } : Edge) ∈ st.graph.edges

theorem wireTarget_nodes (F : String) (st : WireState) (t : String) :
    (wireTarget F st t).graph.nodes = st.graph.nodes := by
  unfold wireTarget
  cases st.graph.fileAttr t <;> dsimp only <;> split <;> try split
  all_goals first
    | rfl
    | (split <;> rfl)

theorem wireTarget_edges_shape (F : String) (st : WireState) (t : String) :
    ∃ l, (wireTarget F st t).graph.edges = st.graph.edges ++ l := by
  unfold wireTarget
  cases h : st.graph.fileAttr t with
  | none =>
    dsimp only
    split_ifs
    all_goals
      first
        | exact ⟨[], (List.append_nil _).symm⟩
        | exact ⟨_, rfl⟩
  | some tf =>
    dsimp only
    split_ifs
    all_goals
      first
        | exact ⟨[], (List.append_nil _).symm⟩
        | exact ⟨_, rfl⟩
        | exact ⟨_, List.append_assoc _ _ _⟩

theorem wireTarget_edges_mono (F : String) (st : WireState) (t : String)
    (e : Edge) (he : e ∈ st.graph.edges) : e ∈ (wireTarget F st t).graph.edges := by
  obtain ⟨l, hl⟩ := wireTarget_edges_shape F st t
  rw [hl]
  exact List.mem_append_left _ he

theorem wireTarget_cases (F : String) (st : WireState) (t : String) :
    ((wireTarget F st t).addedRefs = st.addedRefs ∧
      ∀ e, e ∈ st.graph.edges → e ∈ (wireTarget F st t).graph.edges) ∨
    ((wireTarget F st t).addedRefs = st.addedRefs ++ [refKey F t] ∧
      ({ src := F, tgt := t, type := some "REFERENCES" } : Edge) ∈
        (wireTarget F st t).graph.edges ∧
      ∀ e, e ∈ st.graph.edges → e ∈ (wireTarget F st t).graph.edges) := by
  unfold wireTarget
  cases h : st.graph.fileAttr t with
  | none =>
    dsimp only
    split_ifs
    all_goals
      first
        | exact Or.inl ⟨rfl, fun e he => he⟩
        | exact Or.inr ⟨rfl, List.mem_append_right _ (List.mem_cons_self _ _),
            fun e he => List.mem_append_left _ he⟩
  | some tf =>
    dsimp only
    split_ifs
    all_goals
      first
        | exact Or.inl ⟨rfl, fun e he => he⟩
        | exact Or.inl ⟨rfl, fun e he => List.mem_append_left _ he⟩
        | exact Or.inr ⟨rfl, List.mem_append_right _ (List.mem_cons_self _ _),
            fun e he => List.mem_append_left _ he⟩
        | exact Or.inr ⟨rfl,
            List.mem_append_left _ (List.mem_append_right _ (List.mem_cons_self _ _)),
            fun e he => List.mem_append_left _ (List.mem_append_left _ he)⟩

theorem wireTarget_imp_cases (F : String) (st : WireState) (t : String) :
    (wireTarget F st t).addedImports = st.addedImports ∨
    ∃ tf, st.graph.fileAttr t = some tf ∧ tf ≠ F ∧
      (wireTarget F st t).addedImports = st.addedImports ++ [refKey F tf] ∧
      ({ src := F, tgt := tf, type := some "IMPORTS" } : Edge) ∈
        (wireTarget F st t).graph.edges := by
  unfold wireTarget
  cases h : st.graph.fileAttr t with
  | none =>
    dsimp only
    split_ifs
    all_goals exact Or.inl rfl
  | some tf =>
    dsimp only
    split_ifs with h1 h2 h3
    all_goals
      first
        | exact Or.inl rfl
        | exact Or.inr ⟨tf, rfl, by assumption,
            rfl, List.mem_append_right _ (List.mem_cons_self _ _)⟩

theorem wireTarget_edges_desc (F : String) (st : WireState) (t : String) :
    ∃ l, (wireTarget F st t).graph.edges = st.graph.edges ++ l ∧
      ∀ e ∈ l, e = { src := F, tgt := t, type := some "REFERENCES" } ∨
        ∃ tf, st.graph.fileAttr t = some tf ∧ tf ≠ F ∧
          e = { src := F, tgt := tf, type := some "IMPORTS" } := by
  unfold wireTarget
  cases h : st.graph.fileAttr t with
  | none =>
    dsimp only
    split_ifs
    · exact ⟨[], (List.append_nil _).symm, by simp⟩
    · refine ⟨[{ src := F, tgt := t, type := some "REFERENCES" }], rfl, ?_⟩
      intro e he
      exact Or.inl (List.mem_singleton.mp he)
  | some tf =>
    dsimp only
    split_ifs
    all_goals
      first
        | exact ⟨[], (List.append_nil _).symm, by simp⟩
        | (refine ⟨[{ src := F, tgt := tf, type := some "IMPORTS" }], rfl, ?_⟩
           intro e he
           exact Or.inr ⟨tf, rfl, by assumption, List.mem_singleton.mp he⟩)
        | (refine ⟨[{ src := F, tgt := t, type := some "REFERENCES" }], rfl, ?_⟩
           intro e he
           exact Or.inl (List.mem_singleton.mp he))
        | (refine ⟨[{ src := F, tgt := t, type := some "REFERENCES" },
                    { src := F, tgt := tf, type := some "IMPORTS" }],
              List.append_assoc _ _ _, ?_⟩
           intro e he
           rcases List.mem_pair.mp he with he | he
           · exact Or.inl he
           · exact Or.inr ⟨tf, rfl, by assumption, he⟩)

theorem wireTarget_new_edges (F : String) (st : WireState) (t0 : String)
    (e : Edge) (he : e ∈ (wireTarget F st t0).graph.edges) :
    e ∈ st.graph.edges ∨
    e = { src := F, tgt := t0, type := some "REFERENCES" } ∨
    ∃ tf, st.graph.fileAttr t0 = some tf ∧ tf ≠ F ∧
      e = { src := F, tgt := tf, type := some "IMPORTS" } := by
  obtain ⟨l, hl, hmem⟩ := wireTarget_edges_desc F st t0
  rw [hl] at he
  rcases List.mem_append.mp he with h1 | h1
  · exact Or.inl h1
  · rcases hmem e h1 with h2 | h2
    · exact Or.inr (Or.inl h2)
    · exact Or.inr (Or.inr h2)

theorem wireTarget_refSound (F : String) (hF : Char.ofNat 0 ∉ F.data)
    (st : WireState) (t : String) (hs : RefSound st) :
    RefSound (wireTarget F st t) := by
  intro f t' hf hmem
  rcases wireTarget_cases F st t with ⟨heq, hmono⟩ | ⟨heq, hedge, hmono⟩
  · rw [heq] at hmem
    exact hmono _ (hs f t' hf hmem)
  · rw [heq] at hmem
    rcases List.mem_append.mp hmem with hold | hnew
    · exact hmono _ (hs f t' hf hold)
    · obtain ⟨rfl, rfl⟩ := refKey_inj hf hF (List.mem_singleton.mp hnew)
      exact hedge

theorem wireTarget_impSound (F : String) (hF : Char.ofNat 0 ∉ F.data)
    (st : WireState) (t : String) (hs : ImpSound st) :
    ImpSound (wireTarget F st t) := by
  intro f t' hf hmem
  rcases wireTarget_imp_cases F st t with heq | ⟨tf, _, _, heq, hedge⟩
  · rw [heq] at hmem
    exact wireTarget_edges_mono F st t _ (hs f t' hf hmem)
  · rw [heq] at hmem
    rcases List.mem_append.mp hmem with hold | hnew
    · exact wireTarget_edges_mono F st t _ (hs f t' hf hold)
    · obtain ⟨rfl, rfl⟩ := refKey_inj hf hF (List.mem_singleton.mp hnew)
      exact hedge

theorem wireTarget_adds_ref (F : String) (hF : Char.ofNat 0 ∉ F.data)
    (st : WireState) (t0 : String) (hs : RefSound st) :
    ({ src := F, tgt := t0, type := some "REFERENCES" } : Edge) ∈
      (wireTarget F st t0).graph.edges := by
  unfold wireTarget
  cases h : st.graph.fileAttr t0 with
  | none =>
    dsimp only
    split_ifs with h1
    · exact hs F t0 hF (by simpa using h1)
    · exact List.mem_append_right _ (List.mem_cons_self _ _)
  | some tf =>
    dsimp only
    split_ifs
    all_goals
      first
        | exact List.mem_append_right _ (List.mem_cons_self _ _)
        | exact List.mem_append_left _
            (List.mem_append_right _ (List.mem_cons_self _ _))
        | exact List.mem_append_left _ (hs F t0 hF (by simp_all))
        | exact hs F t0 hF (by simp_all)

theorem wireTarget_ref_mem (F : String) (hF : Char.ofNat 0 ∉ F.data)
    (st : WireState) (hs : RefSound st) (t0 f t : String) :
    ({ src := f, tgt := t, type := some "REFERENCES" } : Edge) ∈
        (wireTarget F st t0).graph.edges ↔
      ({ src := f, tgt := t, type := some "REFERENCES" } : Edge) ∈
          st.graph.edges ∨ (f = F ∧ t = t0) := by
  constructor
  · intro he
    rcases wireTarget_new_edges F st t0 _ he with hold | hnew | ⟨tf, _, _, hnew⟩
    · exact Or.inl hold
    · simp only [Edge.mk.injEq] at hnew
      exact Or.inr ⟨hnew.1, hnew.2.1⟩
    · simp only [Edge.mk.injEq] at hnew
      exact absurd hnew.2.2.1 (by simp)
  · intro hc
    rcases hc with hold | ⟨rfl, rfl⟩
    · exact wireTarget_edges_mono F st t0 _ hold
    · exact wireTarget_adds_ref _ hF st _ hs

theorem foldWire_refSound (F : String) (hF : Char.ofNat 0 ∉ F.data)
    (l : List String) (st : WireState) (hs : RefSound st) :
    RefSound (l.foldl (wireTarget F) st) :=
  foldl_preserve l st (fun s t _ h => wireTarget_refSound F hF s t h) hs

theorem foldWire_impSound (F : String) (hF : Char.ofNat 0 ∉ F.data)
    (l : List String) (st : WireState) (hs : ImpSound st) :
    ImpSound (l.foldl (wireTarget F) st) :=
  foldl_preserve l st (fun s t _ h => wireTarget_impSound F hF s t h) hs

theorem foldWire_nodes (F : String) (l : List String) (st : WireState) :
    (l.foldl (wireTarget F) st).graph.nodes = st.graph.nodes := by
  have := foldl_preserve (P := fun s : WireState => s.graph.nodes = st.graph.nodes)
    (f := wireTarget F) l st
    (fun s t _ h => by
      show (wireTarget F s t).graph.nodes = st.graph.nodes
      rw [wireTarget_nodes]; exact h) rfl
  exact this

theorem foldWire_ref_mem (F : String) (hF : Char.ofNat 0 ∉ F.data) :
    ∀ (l : List String) (st : WireState), RefSound st → ∀ f t,
      (({ src := f, tgt := t, type := some "REFERENCES" } : Edge) ∈
          (l.foldl (wireTarget F) st).graph.edges ↔
        ({ src := f, tgt := t, type := some "REFERENCES" } : Edge) ∈
            st.graph.edges ∨ (f = F ∧ t ∈ l)) := by
  intro l
  induction l with
  | nil => intro st _ f t; simp
  | cons t0 rest ih =>
    intro st hs f t
    simp only [List.foldl_cons]
    rw [ih (wireTarget F st t0) (wireTarget_refSound F hF st t0 hs) f t,
      wireTarget_ref_mem F hF st hs t0 f t]
    simp only [List.mem_cons]
    tauto

theorem disambiguate_spec (targets : List String) (F : String) (g : Graph) :
    (targets.length = 1 → disambiguateTargets targets F g = targets) ∧
    (targets.length ≠ 1 →
      targets.filter (fun t => g.fileAttr t == some F) ≠ [] →
      disambiguateTargets targets F g =
        targets.filter (fun t => g.fileAttr t == some F)) ∧
    (targets.length ≠ 1 →
      targets.filter (fun t => g.fileAttr t == some F) = [] →
      targets.length > AMBIGUITY_CAP → disambiguateTargets targets F g = []) ∧
    (targets.length ≠ 1 →
      targets.filter (fun t => g.fileAttr t == some F) = [] →
      targets.length ≤ AMBIGUITY_CAP → disambiguateTargets targets F g = targets) := by
  refine ⟨fun h1 => ?_, fun h1 hS => ?_, fun h1 hS hcap => ?_, fun h1 hS hcap => ?_⟩
  · unfold disambiguateTargets
    simp [h1]
  · unfold disambiguateTargets
    rw [if_neg (by simpa using h1)]
    dsimp only
    rw [if_pos (by
      cases hf : targets.filter (fun t => g.fileAttr t == some F) with
      | nil => exact absurd hf hS
      | cons a as => simp [hf])]
  · unfold disambiguateTargets
    rw [if_neg (by simpa using h1)]
    dsimp only
    rw [if_neg (by simp [hS]), if_pos hcap]
  · unfold disambiguateTargets
    rw [if_neg (by simpa using h1)]
    dsimp only
    rw [if_neg (by simp [hS]), if_neg (by omega)]

/-- C1: For every reference `r` in a file `F`, with `T = nameIndex[r.name]`,
the builder wires `r` as follows: if `|T| = 1` it wires to that single
target; otherwise, if the sublist `S` of targets whose `file` attribute
equals `F` is non-empty it wires to exactly `S` and to no cross-file
target; otherwise, if `|T| > 5` (the `AMBIGUITY_CAP`) it wires to no target
at all; otherwise it wires to all targets in `T`.  The final conjunct states
what "wires" means: processing `r` adds `REFERENCES` edges out of `F` to
exactly the disambiguated targets (deduplicated against edges already
present). -/
theorem C1_reference_wiring (idx : List (String × List String))
    (st : WireState) (F : String) (r : Ref) (T : List String)
    (hT : indexLookup idx r.name = some T)
    (hF : goodFile F) (hsound : RefSound st) :
    (T.length = 1 → disambiguateTargets T F st.graph = T) ∧
    (T.length ≠ 1 →
      T.filter (fun t => st.graph.fileAttr t == some F) ≠ [] →
      disambiguateTargets T F st.graph =
        T.filter (fun t => st.graph.fileAttr t == some F) ∧
      ∀ t ∈ disambiguateTargets T F st.graph, st.graph.fileAttr t = some F) ∧
    (T.length ≠ 1 →
      T.filter (fun t => st.graph.fileAttr t == some F) = [] →
      T.length > AMBIGUITY_CAP → disambiguateTargets T F st.graph = []) ∧
    (T.length ≠ 1 →
      T.filter (fun t => st.graph.fileAttr t == some F) = [] →
      T.length ≤ AMBIGUITY_CAP → disambiguateTargets T F st.graph = T) ∧
    (∀ f t, ({ src := f, tgt := t, type := some "REFERENCES" } : Edge) ∈
        (wireRef idx F st r).graph.edges ↔
      ({ src := f, tgt := t, type := some "REFERENCES" } : Edge) ∈
          st.graph.edges ∨
        (f = F ∧ t ∈ disambiguateTargets T F st.graph)) := by
  obtain ⟨hc1, hc2, hc3, hc4⟩ := disambiguate_spec T F st.graph
  refine ⟨hc1, ?_, hc3, hc4, ?_⟩
  · intro h1 hS
    refine ⟨hc2 h1 hS, ?_⟩
    intro t ht
    rw [hc2 h1 hS] at ht
    have := (List.mem_filter.mp ht).2
    simpa using this
  · intro f t
    unfold wireRef
    rw [hT]
    exact foldWire_ref_mem F hF.2 (disambiguateTargets T F st.graph) st hsound f t

theorem C1_reference_wiring_witness :
    disambiguateTargets ["a::f"] "b" (defsPhase c4simple) = ["a::f"] ∧
    ({ src := "b", tgt := "a::f", type := some "REFERENCES" } : Edge) ∈
      (wireRef (buildDefIndex c4simple) "b" ⟨defsPhase c4simple, [], []⟩
        ⟨"f", 3⟩).graph.edges := by
  have h := C1_reference_wiring (buildDefIndex c4simple)
    ⟨defsPhase c4simple, [], []⟩ "b" ⟨"f", 3⟩ ["a::f"] (by decide) (by decide)
    (fun f t _ hm => absurd hm (List.not_mem_nil _))
  exact ⟨h.1 (by decide), (h.2.2.2.2 "b" "a::f").mpr (Or.inr ⟨rfl, by decide⟩)⟩

/-! ## Node membership lemmas -/

theorem mem_nodes_mergeNode (g : Graph) (id : String) (u : Attrs)
    (n : String) (a : Attrs) (h : (n, a) ∈ (g.mergeNode id u).nodes) :
    (n, a) ∈ g.nodes ∨
    (n = id ∧ (a = u ∨ ∃ a₀, (n, a₀) ∈ g.nodes ∧ a = mergeAttrs a₀ u)) := by
  unfold Graph.mergeNode at h
  split at h
  · obtain ⟨p, hp, heq⟩ := List.mem_map.mp h
    by_cases hpid : (p.1 == id) = true
    · rw [if_pos hpid] at heq
      have hn : n = p.1 := by cases heq; rfl
      have ha : a = mergeAttrs p.2 u := by cases heq; rfl
      right
      refine ⟨by rw [hn]; exact eq_of_beq hpid, Or.inr ⟨p.2, ?_, ha⟩⟩
      rw [hn]
      exact hp
    · rw [if_neg hpid] at heq
      left
      rw [heq] at hp
      exact hp
  · rcases List.mem_append.mp h with h1 | h1
    · exact Or.inl h1
    · have := List.mem_singleton.mp h1
      right
      refine ⟨by cases this; rfl, Or.inl (by cases this; rfl)⟩

theorem nodupKeys_mergeNode (g : Graph) (id : String) (u : Attrs)
    (h : (g.nodes.map (fun p => p.1)).Nodup) :
    ((g.mergeNode id u).nodes.map (fun p => p.1)).Nodup := by
  unfold Graph.mergeNode
  split
  · have hkeys : (g.nodes.map
        (fun p => if p.1 == id then (p.1, mergeAttrs p.2 u) else p)).map
          (fun p => p.1) = g.nodes.map (fun p => p.1) := by
      rw [List.map_map]
      apply List.map_congr_left
      intro p _
      simp only [Function.comp_apply]
      split <;> rfl
    show ((g.nodes.map
      (fun p => if p.1 == id then (p.1, mergeAttrs p.2 u) else p)).map
        (fun p => p.1)).Nodup
    rw [hkeys]
    exact h
  · rename_i hnot
    have hfind : g.nodes.find? (fun q => q.1 == id) = none := by
      cases hh : g.nodes.find? (fun q => q.1 == id) with
      | none => rfl
      | some a =>
        exact absurd (by rw [Graph.hasNode, hh]; rfl) hnot
    have hid : id ∉ g.nodes.map (fun p => p.1) := by
      intro hmem
      obtain ⟨p, hp, hpid⟩ := List.mem_map.mp hmem
      have := List.find?_eq_none.mp hfind p hp
      simp [hpid] at this
    show ((g.nodes ++ [(id, u)]).map (fun p => p.1)).Nodup
    rw [List.map_append]
    simp only [List.map_cons, List.map_nil]
    rw [List.nodup_append]
    exact ⟨h, List.nodup_singleton _,
      fun x hx hx2 => hid (by rwa [List.mem_singleton.mp hx2] at hx)⟩

theorem assoc_find_unique (l : List (String × Attrs)) (n : String) (a : Attrs)
    (hnd : (l.map (fun p => p.1)).Nodup) (hmem : (n, a) ∈ l) :
    l.find? (fun p => p.1 == n) = some (n, a) := by
  induction l with
  | nil => cases hmem
  | cons q qs ih =>
    rcases List.mem_cons.mp hmem with h1 | h1
    · subst h1
      simp [List.find?]
    · have hq : (q.1 == n) = false := by
        cases hb : q.1 == n with
        | false => rfl
        | true =>
          have hqn : q.1 = n := eq_of_beq hb
          have hn : n ∈ qs.map (fun p => p.1) :=
            List.mem_map.mpr ⟨(n, a), h1, rfl⟩
          rw [List.map_cons, List.nodup_cons] at hnd
          exact absurd (hqn ▸ hn) hnd.1
      simp only [List.find?, hq]
      exact ih (by rw [List.map_cons, List.nodup_cons] at hnd; exact hnd.2) h1

/-! ## Definitions-phase analysis -/

theorem getAttrs_addDefNode (f : String) (g : Graph) (d : Defn) (id : String) :
    (addDefNode f g d).getAttrs id =
      if id = symbolKey f d.name then
        some (match g.getAttrs (symbolKey f d.name) with
              | some a => mergeAttrs a (symbolAttrsP d f)
              | none => symbolAttrsP d f)
      else g.getAttrs id := by
  unfold addDefNode
  rw [getAttrs_addTypedEdge, getAttrs_mergeNode]

theorem mergeAttrs_symbolAttrsP (d₀ d : Defn) (f f' : String) :
    mergeAttrs (symbolAttrsP d₀ f') (symbolAttrsP d f) = symbolAttrsP d f := rfl

theorem addDefs_fold_getAttrs (f nm : String) :
    ∀ (ds : List Defn) (g : Graph),
      (g.getAttrs (symbolKey f nm) = none ∨
        ∃ d₀, g.getAttrs (symbolKey f nm) = some (symbolAttrsP d₀ f)) →
      (ds.foldl (addDefNode f) g).getAttrs (symbolKey f nm) =
        match (ds.filter (fun d => d.name == nm)).getLast? with
        | some d => some (symbolAttrsP d f)
        | none => g.getAttrs (symbolKey f nm) := by
  intro ds
  induction ds with
  | nil => intro g _; rfl
  | cons d rest ih =>
    intro g hg
    simp only [List.foldl_cons, List.filter_cons]
    by_cases hd : (d.name == nm) = true
    · rw [if_pos hd]
      have hkey : symbolKey f d.name = symbolKey f nm := by rw [eq_of_beq hd]
      have hg' : (addDefNode f g d).getAttrs (symbolKey f nm) =
          some (symbolAttrsP d f) := by
        rw [getAttrs_addDefNode, hkey, if_pos rfl]
        rcases hg with h | ⟨d₀, h⟩
        · rw [h]
        · rw [h]
          rfl
      rw [ih (addDefNode f g d) (Or.inr ⟨d, hg'⟩)]
      cases hrf : rest.filter (fun d => d.name == nm) with
      | nil => simp [hg']
      | cons a as =>
        rw [List.getLast?_cons_cons,
          List.getLast?_eq_getLast _ (List.cons_ne_nil a as)]
    · rw [if_neg hd]
      have hkey : symbolKey f nm ≠ symbolKey f d.name := by
        intro hk
        exact hd (beq_iff_eq.mpr (symbolKey_name_inj hk).symm)
      have hg'' : (addDefNode f g d).getAttrs (symbolKey f nm) =
          g.getAttrs (symbolKey f nm) := by
        rw [getAttrs_addDefNode, if_neg hkey]
      rw [ih _ (by rw [hg'']; exact hg), hg'']

theorem getAttrs_addFileRecord_other (g : Graph) (fs : FileSymbols)
    (f nm : String) (hgood : goodFile fs.file) (hgf : goodFile f)
    (hne : fs.file ≠ f) :
    (addFileRecord g fs).getAttrs (symbolKey f nm) =
      g.getAttrs (symbolKey f nm) := by
  unfold addFileRecord
  have h1 : (g.mergeNode fs.file (fileAttrsP fs.definitions.length)).getAttrs
      (symbolKey f nm) = g.getAttrs (symbolKey f nm) :=
    getAttrs_mergeNode_ne _ _ _ _ (Ne.symm (goodFile_ne_symbolKey hgood))
  refine foldl_preserve (f := addDefNode fs.file)
    (P := fun g' => g'.getAttrs (symbolKey f nm) = g.getAttrs (symbolKey f nm))
    fs.definitions _ ?_ h1
  intro g' d _ hP
  show (addDefNode fs.file g' d).getAttrs (symbolKey f nm) = _
  rw [getAttrs_addDefNode, if_neg, hP]
  intro hk
  obtain ⟨hf, _⟩ := symbolKey_inj hgf.1 hgood.1 hk
  exact hne hf.symm

theorem getAttrs_addFileRecord_self (g : Graph) (fs : FileSymbols) (nm : String)
    (hgood : goodFile fs.file)
    (hg : g.getAttrs (symbolKey fs.file nm) = none ∨
      ∃ d₀, g.getAttrs (symbolKey fs.file nm) = some (symbolAttrsP d₀ fs.file)) :
    (addFileRecord g fs).getAttrs (symbolKey fs.file nm) =
      match (fs.definitions.filter (fun d => d.name == nm)).getLast? with
      | some d => some (symbolAttrsP d fs.file)
      | none => g.getAttrs (symbolKey fs.file nm) := by
  unfold addFileRecord
  have h1 : (g.mergeNode fs.file (fileAttrsP fs.definitions.length)).getAttrs
      (symbolKey fs.file nm) = g.getAttrs (symbolKey fs.file nm) :=
    getAttrs_mergeNode_ne _ _ _ _ (Ne.symm (goodFile_ne_symbolKey hgood))
  rw [addDefs_fold_getAttrs fs.file nm fs.definitions _ (by rw [h1]; exact hg), h1]

theorem wireRef_nodes (idx : List (String × List String)) (F : String)
    (st : WireState) (r : Ref) :
    (wireRef idx F st r).graph.nodes = st.graph.nodes := by
  unfold wireRef
  cases indexLookup idx r.name with
  | none => rfl
  | some targets => exact foldWire_nodes F _ st

theorem wireRecord_nodes (idx : List (String × List String)) (st : WireState)
    (fs : FileSymbols) :
    (wireRecord idx st fs).graph.nodes = st.graph.nodes := by
  unfold wireRecord
  refine foldl_preserve (f := wireRef idx fs.file)
    (P := fun s : WireState => s.graph.nodes = st.graph.nodes)
    fs.references st ?_ rfl
  intro s r _ h
  show (wireRef idx fs.file s r).graph.nodes = st.graph.nodes
  rw [wireRef_nodes]
  exact h

theorem buildGraph_nodes (X : List FileSymbols) :
    (buildGraph X).nodes = (defsPhase X).nodes := by
  unfold buildGraph
  refine foldl_preserve (f := wireRecord (buildDefIndex X))
    (P := fun s : WireState => s.graph.nodes = (defsPhase X).nodes)
    X ⟨defsPhase X, [], []⟩ ?_ rfl
  intro s fs _ h
  show (wireRecord (buildDefIndex X) s fs).graph.nodes = (defsPhase X).nodes
  rw [wireRecord_nodes]
  exact h

theorem getAttrs_congr_nodes (g g' : Graph) (h : g.nodes = g'.nodes)
    (id : String) : g.getAttrs id = g'.getAttrs id := by
  unfold Graph.getAttrs
  rw [h]

theorem nodupKeys_addDefNode (f : String) (g : Graph) (d : Defn)
    (h : (g.nodes.map (fun p => p.1)).Nodup) :
    ((addDefNode f g d).nodes.map (fun p => p.1)).Nodup := by
  unfold addDefNode
  rw [nodes_addTypedEdge]
  exact nodupKeys_mergeNode _ _ _ h

theorem nodupKeys_addFileRecord (g : Graph) (fs : FileSymbols)
    (h : (g.nodes.map (fun p => p.1)).Nodup) :
    ((addFileRecord g fs).nodes.map (fun p => p.1)).Nodup := by
  unfold addFileRecord
  refine foldl_preserve (f := addDefNode fs.file)
    (P := fun g' : Graph => (g'.nodes.map (fun p => p.1)).Nodup)
    fs.definitions _ ?_ (nodupKeys_mergeNode _ _ _ h)
  intro g' d _ hP
  exact nodupKeys_addDefNode _ _ _ hP

theorem defsPhase_nodupKeys (X : List FileSymbols) :
    ((defsPhase X).nodes.map (fun p => p.1)).Nodup := by
  unfold defsPhase
  refine foldl_preserve (f := addFileRecord)
    (P := fun g : Graph => (g.nodes.map (fun p => p.1)).Nodup)
    X Graph.empty ?_ List.nodup_nil
  intro g fs _ hP
  exact nodupKeys_addFileRecord _ _ hP

theorem mem_of_getAttrs (g : Graph) (n : String) (a : Attrs)
    (h : g.getAttrs n = some a) : (n, a) ∈ g.nodes := by
  unfold Graph.getAttrs at h
  cases hf : g.nodes.find? (fun p => p.1 == n) with
  | none => rw [hf] at h; cases h
  | some p =>
    rw [hf] at h
    have hpb := List.find?_some hf
    have hp1 : p.1 = n := eq_of_beq hpb
    have hp2 : p.2 = a := by simpa using h
    have hmem := List.mem_of_find?_eq_some hf
    have : p = (n, a) := by
      cases p
      simp only at hp1 hp2
      rw [hp1, hp2]
    rw [← this]
    exact hmem

theorem nodup_filter_key (l : List (String × Attrs)) (n : String) (a : Attrs)
    (hnd : (l.map (fun p => p.1)).Nodup) (hmem : (n, a) ∈ l) :
    l.filter (fun p => p.1 == n) = [(n, a)] := by
  induction l with
  | nil => cases hmem
  | cons q qs ih =>
    rw [List.map_cons, List.nodup_cons] at hnd
    rcases List.mem_cons.mp hmem with h1 | h1
    · subst h1
      rw [List.filter_cons_of_pos (by simp)]
      have : qs.filter (fun p => p.1 == n) = [] := by
        rw [List.filter_eq_nil]
        intro p hp
        simp only [Bool.not_eq_true]
        cases hb : p.1 == n with
        | false => rfl
        | true =>
          exact absurd (eq_of_beq hb ▸ List.mem_map.mpr ⟨p, hp, rfl⟩) hnd.1
      rw [this]
    · have hq : (q.1 == n) = false := by
        cases hb : q.1 == n with
        | false => rfl
        | true =>
          have : n ∈ qs.map (fun p => p.1) :=
            List.mem_map.mpr ⟨(n, a), h1, rfl⟩
          exact absurd (eq_of_beq hb ▸ this) hnd.1
      rw [List.filter_cons_of_neg (by simp [hq])]
      exact ih hnd.2 h1

/-- C10: For every `FileSymbols` record whose definitions sequence contains
two or more definitions with the same name in the same file, the builder
creates exactly one symbol node keyed `<file>::<name>`, and that node's
attributes (`kind`, `lineStart`, `lineEnd`, `signature` — the full merged
record) are those of the last such definition in the sequence; the earlier
same-name definitions contribute no separate symbol node. -/
theorem C10_duplicate_definitions (X : List FileSymbols) (fs : FileSymbols)
    (n : String) (hwf : WfInput X) (hnd : (X.map (fun r => r.file)).Nodup)
    (hfs : fs ∈ X)
    (hdup : 2 ≤ (fs.definitions.filter (fun d => d.name == n)).length) :
    ((buildGraph X).nodes.filter
        (fun p => p.1 == symbolKey fs.file n)).length = 1 ∧
    ∃ d, (fs.definitions.filter (fun d => d.name == n)).getLast? = some d ∧
      (buildGraph X).getAttrs (symbolKey fs.file n) =
        some (symbolAttrsP d fs.file) := by
  obtain ⟨s, t, hX⟩ := List.append_of_mem hfs
  subst hX
  have hgoodfs : goodFile fs.file := hwf fs hfs
  have hsfiles : ∀ fs' ∈ s, fs'.file ≠ fs.file := by
    intro fs' hm heq
    rw [List.map_append, List.map_cons] at hnd
    have hdisj := (List.nodup_append.mp hnd).2.2
    exact hdisj (List.mem_map.mpr ⟨fs', hm, rfl⟩)
      (heq ▸ List.mem_cons_self _ _)
  have htfiles : ∀ fs' ∈ t, fs'.file ≠ fs.file := by
    intro fs' hm heq
    rw [List.map_append, List.map_cons] at hnd
    have := ((List.nodup_append.mp hnd).2.1)
    rw [List.nodup_cons] at this
    exact this.1 (heq ▸ List.mem_map.mpr ⟨fs', hm, rfl⟩)
  have hfilne : fs.definitions.filter (fun d => d.name == n) ≠ [] := by
    intro h
    rw [h] at hdup
    simp at hdup
  have hlast := List.getLast?_eq_getLast
    (fs.definitions.filter (fun d => d.name == n)) hfilne
  set dlast := (fs.definitions.filter (fun d => d.name == n)).getLast hfilne
    with hdlast
  -- decompose the definitions phase
  have hphase : defsPhase (s ++ fs :: t) =
      t.foldl addFileRecord
        (addFileRecord (s.foldl addFileRecord Graph.empty) fs) := by
    unfold defsPhase
    rw [List.foldl_append, List.foldl_cons]
  -- before fs's record the key is absent
  have hbefore : (s.foldl addFileRecord Graph.empty).getAttrs
      (symbolKey fs.file n) = none := by
    refine foldl_preserve (f := addFileRecord)
      (P := fun g : Graph => g.getAttrs (symbolKey fs.file n) = none)
      s Graph.empty ?_ rfl
    intro g fs' hm hP
    show (addFileRecord g fs').getAttrs (symbolKey fs.file n) = none
    rw [getAttrs_addFileRecord_other _ _ _ _
      (hwf fs' (List.mem_append_left _ hm)) hgoodfs (hsfiles fs' hm), hP]
  -- fs's record writes the last same-name definition
  have hself : (addFileRecord (s.foldl addFileRecord Graph.empty) fs).getAttrs
      (symbolKey fs.file n) = some (symbolAttrsP dlast fs.file) := by
    rw [getAttrs_addFileRecord_self _ _ _ hgoodfs (Or.inl hbefore), hlast]
  -- the records after fs do not touch the key
  have hafter : (defsPhase (s ++ fs :: t)).getAttrs (symbolKey fs.file n) =
      some (symbolAttrsP dlast fs.file) := by
    rw [hphase]
    refine foldl_preserve (f := addFileRecord)
      (P := fun g : Graph =>
        g.getAttrs (symbolKey fs.file n) = some (symbolAttrsP dlast fs.file))
      t _ ?_ hself
    intro g fs' hm hP
    show (addFileRecord g fs').getAttrs (symbolKey fs.file n) = _
    rw [getAttrs_addFileRecord_other _ _ _ _
      (hwf fs' (List.mem_append_right _ (List.mem_cons_of_mem _ hm)))
      hgoodfs (htfiles fs' hm), hP]
  have hbuild : (buildGraph (s ++ fs :: t)).getAttrs (symbolKey fs.file n) =
      some (symbolAttrsP dlast fs.file) := by
    rw [getAttrs_congr_nodes _ _ (buildGraph_nodes _), hafter]
  refine ⟨?_, dlast, hlast, hbuild⟩
  have hmem := mem_of_getAttrs _ _ _ hbuild
  have hnodup : ((buildGraph (s ++ fs :: t)).nodes.map
      (fun p => p.1)).Nodup := by
    rw [buildGraph_nodes]
    exact defsPhase_nodupKeys _
  rw [nodup_filter_key _ _ _ hnodup hmem]
  rfl

theorem C10_duplicate_definitions_witness :
    ((buildGraph c3dup).nodes.filter
        (fun p => p.1 == symbolKey "a" "f")).length = 1 ∧
    ∃ d, (c3rec.definitions.filter (fun d => d.name == "f")).getLast? = some d ∧
      (buildGraph c3dup).getAttrs (symbolKey "a" "f") =
        some (symbolAttrsP d "a") := by
  exact C10_duplicate_definitions c3dup c3rec "f" (by decide) (by decide)
    (List.mem_singleton_self _) (by decide)

/-! ## The builder's graph invariant (claim C4) -/

/-- Well-formedness maintained by every builder operation: the
`REFERENCES`-implies-`IMPORTS` property, absence of self-imports, the shape
of `file` attributes, symbols carrying their owner, reference targets
carrying a `file` attribute, and uniqueness of node ids. -/
structure GInv (g : Graph) : Prop where
  refImp : ∀ F t tf,
    ({ src := F, tgt := t, type := some "REFERENCES" } : Edge) ∈ g.edges →
    g.fileAttr t = some tf → tf ≠ F →
    ({ src := F, tgt := tf, type := some "IMPORTS" } : Edge) ∈ g.edges
  noSelfImp : ∀ F,
    ({ src := F, tgt := F, type := some "IMPORTS" } : Edge) ∉ g.edges
  fileShape : ∀ n a, (n, a) ∈ g.nodes → ∀ f, a.file = some f →
    goodFile f ∧ ∃ s, n = symbolKey f s
  symFile : ∀ n a, (n, a) ∈ g.nodes → a.type = some "symbol" →
    ∃ f, a.file = some f
  refTarget : ∀ F t,
    ({ src := F, tgt := t, type := some "REFERENCES" } : Edge) ∈ g.edges →
    ∃ tf, g.fileAttr t = some tf
  nodupIds : (g.nodes.map (fun p => p.1)).Nodup

theorem GInv_empty : GInv Graph.empty := by
  constructor <;> intros <;> simp_all [Graph.empty, Graph.fileAttr,
    Graph.getAttrs, List.find?]

theorem fileAttr_congr_nodes (g g' : Graph) (h : g.nodes = g'.nodes)
    (id : String) : g.fileAttr id = g'.fileAttr id := by
  unfold Graph.fileAttr
  rw [getAttrs_congr_nodes g g' h]

/-- The value of a symbol node's `file` attribute is forced by its id:
under `GInv`, a node keyed `symbolKey f nm` with `goodFile f` can only
carry `file = f`. -/
theorem fileAttr_forced (g : Graph) (hg : GInv g) (f nm tf : String)
    (hgf : goodFile f) (h : g.fileAttr (symbolKey f nm) = some tf) :
    tf = f := by
  unfold Graph.fileAttr at h
  cases hga : g.getAttrs (symbolKey f nm) with
  | none => rw [hga] at h; cases h
  | some a =>
    rw [hga] at h
    have h2 : a.file = some tf := h
    obtain ⟨hgood, s, hshape⟩ :=
      hg.fileShape _ _ (mem_of_getAttrs _ _ _ hga) tf h2
    exact (symbolKey_inj hgood.1 hgf.1 hshape.symm).1

theorem GInv_mergeNode_fileAttrsP (g : Graph) (id : String) (k : Nat)
    (hg : GInv g) : GInv (g.mergeNode id (fileAttrsP k)) := by
  constructor
  · intro F t tf he hfa htf
    rw [edges_mergeNode] at he ⊢
    rw [fileAttr_mergeNode_fileAttrsP] at hfa
    exact hg.refImp F t tf he hfa htf
  · intro F
    rw [edges_mergeNode]
    exact hg.noSelfImp F
  · intro n a hmem f hf
    rcases mem_nodes_mergeNode _ _ _ _ _ hmem with h1 | ⟨hn, h2⟩
    · exact hg.fileShape _ _ h1 f hf
    · rcases h2 with rfl | ⟨a₀, hmem₀, rfl⟩
      · cases hf
      · have : a₀.file = some f := by
          simpa [mergeAttrs, fileAttrsP] using hf
        exact hg.fileShape _ _ hmem₀ f this
  · intro n a hmem hty
    rcases mem_nodes_mergeNode _ _ _ _ _ hmem with h1 | ⟨hn, h2⟩
    · exact hg.symFile _ _ h1 hty
    · rcases h2 with rfl | ⟨a₀, hmem₀, rfl⟩
      · simp [fileAttrsP] at hty
      · simp [mergeAttrs, fileAttrsP] at hty
  · intro F t he
    rw [edges_mergeNode] at he
    obtain ⟨tf, htf⟩ := hg.refTarget F t he
    rw [fileAttr_mergeNode_fileAttrsP]
    exact ⟨tf, htf⟩
  · exact nodupKeys_mergeNode _ _ _ hg.nodupIds

theorem GInv_mergeNode_symbolAttrsP (g : Graph) (d : Defn) (f : String)
    (hgf : goodFile f) (hg : GInv g) :
    GInv (g.mergeNode (symbolKey f d.name) (symbolAttrsP d f)) := by
  have hfa : ∀ t, (g.mergeNode (symbolKey f d.name)
      (symbolAttrsP d f)).fileAttr t =
      if t = symbolKey f d.name then some f else g.fileAttr t := by
    intro t
    by_cases ht : t = symbolKey f d.name
    · subst ht
      rw [if_pos rfl]
      exact fileAttr_mergeNode_symbolAttrsP_self _ _ _ _
    · rw [if_neg ht, fileAttr_mergeNode_ne _ _ _ _ ht]
  constructor
  · intro F t tf he hfa' htf
    rw [edges_mergeNode] at he ⊢
    rw [hfa t] at hfa'
    by_cases ht : t = symbolKey f d.name
    · rw [if_pos ht] at hfa'
      obtain ⟨tf₀, htf₀⟩ := hg.refTarget F t he
      have h1 : tf₀ = f := fileAttr_forced g hg f d.name tf₀ hgf (ht ▸ htf₀)
      have h2 : tf = f := by cases hfa'; rfl
      exact hg.refImp F t tf he (by rw [htf₀, h1, h2]) htf
    · rw [if_neg ht] at hfa'
      exact hg.refImp F t tf he hfa' htf
  · intro F
    rw [edges_mergeNode]
    exact hg.noSelfImp F
  · intro n a hmem f' hf'
    rcases mem_nodes_mergeNode _ _ _ _ _ hmem with h1 | ⟨hn, h2⟩
    · exact hg.fileShape _ _ h1 f' hf'
    · have hfile : f' = f := by
        rcases h2 with rfl | ⟨a₀, hmem₀, rfl⟩
        · simpa [symbolAttrsP] using hf'.symm
        · have : some f = some f' := by
            simpa [mergeAttrs, symbolAttrsP] using hf'
          cases this; rfl
      subst hfile
      exact ⟨hgf, d.name, hn⟩
  · intro n a hmem hty
    rcases mem_nodes_mergeNode _ _ _ _ _ hmem with h1 | ⟨hn, h2⟩
    · exact hg.symFile _ _ h1 hty
    · rcases h2 with rfl | ⟨a₀, hmem₀, rfl⟩
      · exact ⟨f, rfl⟩
      · exact ⟨f, rfl⟩
  · intro F t he
    rw [edges_mergeNode] at he
    obtain ⟨tf, htf⟩ := hg.refTarget F t he
    rw [hfa t]
    by_cases ht : t = symbolKey f d.name
    · rw [if_pos ht]; exact ⟨f, rfl⟩
    · rw [if_neg ht]; exact ⟨tf, htf⟩
  · exact nodupKeys_mergeNode _ _ _ hg.nodupIds

theorem GInv_addDefinesEdge (g : Graph) (s t : String) (hg : GInv g) :
    GInv (g.addTypedEdge s t "DEFINES") := by
  constructor
  · intro F u tf he hfa htf
    rw [edges_addTypedEdge] at he ⊢
    rcases List.mem_append.mp he with h1 | h1
    · rw [fileAttr_addTypedEdge] at hfa
      exact List.mem_append_left _ (hg.refImp F u tf h1 hfa htf)
    · simp at h1
  · intro F hmem
    rw [edges_addTypedEdge] at hmem
    rcases List.mem_append.mp hmem with h1 | h1
    · exact hg.noSelfImp F h1
    · simp at h1
  · intro n a hmem f hf
    rw [nodes_addTypedEdge] at hmem
    exact hg.fileShape _ _ hmem f hf
  · intro n a hmem hty
    rw [nodes_addTypedEdge] at hmem
    exact hg.symFile _ _ hmem hty
  · intro F u he
    rw [edges_addTypedEdge] at he
    rcases List.mem_append.mp he with h1 | h1
    · rw [fileAttr_addTypedEdge]
      exact hg.refTarget F u h1
    · simp at h1
  · rw [nodes_addTypedEdge]
    exact hg.nodupIds

theorem wireTarget_fileAttr (F : String) (st : WireState) (t x : String) :
    (wireTarget F st t).graph.fileAttr x = st.graph.fileAttr x :=
  fileAttr_congr_nodes _ _ (wireTarget_nodes F st t) x

theorem wireTarget_adds_imp (F : String) (hF : Char.ofNat 0 ∉ F.data)
    (st : WireState) (t0 tf : String) (himp : ImpSound st)
    (h : st.graph.fileAttr t0 = some tf) (htf : tf ≠ F) :
    ({ src := F, tgt := tf, type := some "IMPORTS" } : Edge) ∈
      (wireTarget F st t0).graph.edges := by
  unfold wireTarget
  rw [h]
  dsimp only
  split_ifs
  all_goals
    first
      | exact absurd (not_not.mp (by assumption)) htf
      | exact List.mem_append_right _ (List.mem_cons_self _ _)
      | exact List.mem_append_left _ (himp F tf hF (by simp_all))
      | exact himp F tf hF (by simp_all)

theorem wireTarget_GInv (F : String) (hFg : goodFile F) (st : WireState)
    (t0 : String) (hg : GInv st.graph) (himp : ImpSound st)
    (hsome : (st.graph.fileAttr t0).isSome) :
    GInv (wireTarget F st t0).graph := by
  constructor
  · intro F' t tf he hfa htf
    rw [wireTarget_fileAttr] at hfa
    rcases wireTarget_new_edges F st t0 _ he with hold | hnew | ⟨tf', _, _, hnew⟩
    · exact wireTarget_edges_mono F st t0 _ (hg.refImp F' t tf hold hfa htf)
    · simp only [Edge.mk.injEq] at hnew
      obtain ⟨rfl, rfl, -, -⟩ := hnew
      exact wireTarget_adds_imp _ hFg.2 st _ tf himp hfa htf
    · simp only [Edge.mk.injEq] at hnew
      exact absurd hnew.2.2.1 (by simp)
  · intro F' hmem
    rcases wireTarget_new_edges F st t0 _ hmem with hold | hnew | ⟨tf', _, htf', hnew⟩
    · exact hg.noSelfImp F' hold
    · simp only [Edge.mk.injEq] at hnew
      exact absurd hnew.2.2.1 (by simp)
    · simp only [Edge.mk.injEq] at hnew
      obtain ⟨rfl, h2, -, -⟩ := hnew
      exact htf' h2.symm
  · intro n a hmem f hf
    rw [wireTarget_nodes] at hmem
    exact hg.fileShape _ _ hmem f hf
  · intro n a hmem hty
    rw [wireTarget_nodes] at hmem
    exact hg.symFile _ _ hmem hty
  · intro F' t he
    rw [wireTarget_fileAttr]
    rcases wireTarget_new_edges F st t0 _ he with hold | hnew | ⟨tf', _, _, hnew⟩
    · exact hg.refTarget F' t hold
    · simp only [Edge.mk.injEq] at hnew
      obtain ⟨-, rfl, -, -⟩ := hnew
      exact Option.isSome_iff_exists.mp hsome
    · simp only [Edge.mk.injEq] at hnew
      exact absurd hnew.2.2.1 (by simp)
  · rw [wireTarget_nodes]
    exact hg.nodupIds

theorem mem_nodes_dropFileNodes (g : Graph) (p n : String) (a : Attrs) :
    (n, a) ∈ (g.dropFileNodes p).nodes ↔
      (n, a) ∈ g.nodes ∧ n ≠ p ∧ a.file ≠ some p := by
  unfold Graph.dropFileNodes
  simp only [List.mem_filter, Bool.not_eq_true', Bool.or_eq_false_iff]
  constructor
  · rintro ⟨h1, h2, h3⟩
    exact ⟨h1, by simpa using h2, by simpa using h3⟩
  · rintro ⟨h1, h2, h3⟩
    exact ⟨h1, by simpa using h2, by simpa using h3⟩

theorem droppedIds_mem (g : Graph) (p x : String) :
    (x ∈ (g.nodes.filter
        (fun q => q.1 == p || q.2.file == some p)).map (fun q => q.1)) ↔
      ∃ a, (x, a) ∈ g.nodes ∧ (x = p ∨ a.file = some p) := by
  constructor
  · intro h
    obtain ⟨q, hq, hx⟩ := List.mem_map.mp h
    obtain ⟨hmem, hcond⟩ := List.mem_filter.mp hq
    refine ⟨q.2, by rw [← hx]; exact hmem, ?_⟩
    rw [← hx]
    simpa using hcond
  · rintro ⟨a, hmem, hcond⟩
    exact List.mem_map.mpr ⟨(x, a),
      List.mem_filter.mpr ⟨hmem, by simpa using hcond⟩, rfl⟩

theorem mem_edges_dropFileNodes (g : Graph) (p : String) (e : Edge) :
    e ∈ (g.dropFileNodes p).edges ↔
      e ∈ g.edges ∧
      (¬ ∃ a, (e.src, a) ∈ g.nodes ∧ (e.src = p ∨ a.file = some p)) ∧
      (¬ ∃ a, (e.tgt, a) ∈ g.nodes ∧ (e.tgt = p ∨ a.file = some p)) := by
  unfold Graph.dropFileNodes
  simp only [List.mem_filter, Bool.and_eq_true, Bool.not_eq_true']
  constructor
  · rintro ⟨h1, h2, h3⟩
    refine ⟨h1, ?_, ?_⟩
    · intro hex
      have := (droppedIds_mem g p e.src).mpr hex
      have hc : ((g.nodes.filter
          (fun q => q.1 == p || q.2.file == some p)).map
            (fun q => q.1)).contains e.src = true := by simpa using this
      rw [hc] at h2
      cases h2
    · intro hex
      have := (droppedIds_mem g p e.tgt).mpr hex
      have hc : ((g.nodes.filter
          (fun q => q.1 == p || q.2.file == some p)).map
            (fun q => q.1)).contains e.tgt = true := by simpa using this
      rw [hc] at h3
      cases h3
  · rintro ⟨h1, h2, h3⟩
    refine ⟨h1, ?_, ?_⟩
    · cases hc : ((g.nodes.filter
          (fun q => q.1 == p || q.2.file == some p)).map
            (fun q => q.1)).contains e.src with
      | false => rfl
      | true =>
        exact absurd ((droppedIds_mem g p e.src).mp (by simpa using hc)) h2
    · cases hc : ((g.nodes.filter
          (fun q => q.1 == p || q.2.file == some p)).map
            (fun q => q.1)).contains e.tgt with
      | false => rfl
      | true =>
        exact absurd ((droppedIds_mem g p e.tgt).mp (by simpa using hc)) h3

theorem nodupKeys_dropFileNodes (g : Graph) (p : String)
    (h : (g.nodes.map (fun q => q.1)).Nodup) :
    ((g.dropFileNodes p).nodes.map (fun q => q.1)).Nodup := by
  unfold Graph.dropFileNodes
  exact List.Nodup.sublist (List.Sublist.map _ (List.filter_sublist _)) h

theorem getAttrs_dropFileNodes_some (g : Graph) (p n : String) (a : Attrs)
    (hnd : (g.nodes.map (fun q => q.1)).Nodup) :
    (g.dropFileNodes p).getAttrs n = some a ↔
      (n, a) ∈ g.nodes ∧ n ≠ p ∧ a.file ≠ some p := by
  constructor
  · intro h
    exact (mem_nodes_dropFileNodes g p n a).mp (mem_of_getAttrs _ _ _ h)
  · rintro ⟨hmem, h1, h2⟩
    have hmem' : (n, a) ∈ (g.dropFileNodes p).nodes :=
      (mem_nodes_dropFileNodes g p n a).mpr ⟨hmem, h1, h2⟩
    unfold Graph.getAttrs
    rw [assoc_find_unique _ _ _ (nodupKeys_dropFileNodes g p hnd) hmem']
    rfl

theorem fileAttr_eq_some (g : Graph) (t tf : String) :
    g.fileAttr t = some tf ↔
      ∃ a, g.getAttrs t = some a ∧ a.file = some tf := by
  unfold Graph.fileAttr
  exact Option.bind_eq_some

theorem GInv_dropFileNodes (g : Graph) (p : String) (hg : GInv g) :
    GInv (g.dropFileNodes p) := by
  constructor
  · intro F t tf he hfa htf
    obtain ⟨he0, hnsrc, hntgt⟩ := (mem_edges_dropFileNodes g p _).mp he
    obtain ⟨a, hga, haf⟩ := (fileAttr_eq_some _ _ _).mp hfa
    obtain ⟨hmem, htp, hfp⟩ :=
      (getAttrs_dropFileNodes_some g p t a hg.nodupIds).mp hga
    have hgfa : g.fileAttr t = some tf := by
      rw [fileAttr_eq_some]
      refine ⟨a, ?_, haf⟩
      unfold Graph.getAttrs
      rw [assoc_find_unique _ _ _ hg.nodupIds hmem]
      rfl
    have himp := hg.refImp F t tf he0 hgfa htf
    rw [mem_edges_dropFileNodes]
    refine ⟨himp, hnsrc, ?_⟩
    rintro ⟨a', hmem', hcond⟩
    obtain ⟨hgoodtf, s, hshape⟩ := hg.fileShape _ _ hmem tf haf
    rcases hcond with rfl | hfile
    · exact hfp (by rw [haf])
    · obtain ⟨hgoodp, s', hshape'⟩ := hg.fileShape _ _ hmem' p hfile
      dsimp only at hshape'
      apply hgoodtf.1
      rw [hshape', symbolKey_data]
      exact List.mem_append_right _ (List.mem_cons_self _ _)
  · intro F hmem
    exact hg.noSelfImp F ((mem_edges_dropFileNodes g p _).mp hmem).1
  · intro n a hmem f hf
    exact hg.fileShape _ _ ((mem_nodes_dropFileNodes g p n a).mp hmem).1 f hf
  · intro n a hmem hty
    exact hg.symFile _ _ ((mem_nodes_dropFileNodes g p n a).mp hmem).1 hty
  · intro F t he
    obtain ⟨he0, hnsrc, hntgt⟩ := (mem_edges_dropFileNodes g p _).mp he
    obtain ⟨tf, hgfa⟩ := hg.refTarget F t he0
    obtain ⟨a, hga, haf⟩ := (fileAttr_eq_some _ _ _).mp hgfa
    have hmem := mem_of_getAttrs _ _ _ hga
    have hkeep : t ≠ p ∧ a.file ≠ some p := by
      constructor
      · intro hc
        exact hntgt ⟨a, hmem, Or.inl hc⟩
      · intro hc
        exact hntgt ⟨a, hmem, Or.inr hc⟩
    refine ⟨tf, ?_⟩
    rw [fileAttr_eq_some]
    exact ⟨a, (getAttrs_dropFileNodes_some g p t a hg.nodupIds).mpr
      ⟨hmem, hkeep.1, hkeep.2⟩, haf⟩
  · exact nodupKeys_dropFileNodes g p hg.nodupIds

/-! ## Name-index lemmas -/

theorem indexAdd_lookup_mem (idx : List (String × List String))
    (nm k nm' : String) (T : List String) (t : String)
    (hlook : indexLookup (indexAdd idx nm k) nm' = some T) (ht : t ∈ T) :
    t = k ∨ ∃ T₀, indexLookup idx nm' = some T₀ ∧ t ∈ T₀ := by
  unfold indexAdd at hlook
  split at hlook
  · unfold indexLookup at hlook
    rw [List.find?_map] at hlook
    have hpres : ((fun (p : String × List String) => p.1 == nm') ∘
        (fun (p : String × List String) =>
          if p.1 == nm then (p.1, p.2 ++ [k]) else p)) =
        (fun (p : String × List String) => p.1 == nm') := by
      funext p
      simp only [Function.comp_apply]
      split <;> rfl
    rw [hpres] at hlook
    cases hfind : idx.find? (fun p => p.1 == nm') with
    | none => rw [hfind] at hlook; cases hlook
    | some p =>
      rw [hfind] at hlook
      by_cases hpnm : (p.1 == nm) = true
      · have hT : T = p.2 ++ [k] := by
          have hp : p.1 = nm := eq_of_beq hpnm
          simp [hp] at hlook
          exact hlook.symm
        rw [hT] at ht
        rcases List.mem_append.mp ht with h1 | h1
        · exact Or.inr ⟨p.2, by unfold indexLookup; rw [hfind]; rfl, h1⟩
        · exact Or.inl (List.mem_singleton.mp h1)
      · have hT : T = p.2 := by
          have hp : ¬(p.1 = nm) := fun h => hpnm (beq_iff_eq.mpr h)
          simp [hp] at hlook
          exact hlook.symm
        rw [hT] at ht
        exact Or.inr ⟨p.2, by unfold indexLookup; rw [hfind]; rfl, ht⟩
  · unfold indexLookup at hlook
    rw [List.find?_append] at hlook
    cases hfind : idx.find? (fun p => p.1 == nm') with
    | some p =>
      rw [hfind] at hlook
      have hT : T = p.2 := by
        simpa using hlook.symm
      rw [hT] at ht
      exact Or.inr ⟨p.2, by unfold indexLookup; rw [hfind]; rfl, ht⟩
    | none =>
      rw [hfind] at hlook
      by_cases hnm : ((nm, [k]).1 == nm') = true
      · have hT : T = [k] := by
          simp only [List.find?, hnm, Option.none_or] at hlook
          simpa using hlook.symm
        rw [hT] at ht
        exact Or.inl (List.mem_singleton.mp ht)
      · simp only [List.find?, hnm, Option.none_or] at hlook
        cases hlook

theorem isSome_mergeNode (g : Graph) (id : String) (u : Attrs) (x : String)
    (h : (g.getAttrs x).isSome) : ((g.mergeNode id u).getAttrs x).isSome := by
  rw [getAttrs_mergeNode]
  split
  · rfl
  · exact h

theorem isSome_addDefNode (f : String) (g : Graph) (d : Defn) (x : String)
    (h : (g.getAttrs x).isSome) : ((addDefNode f g d).getAttrs x).isSome := by
  rw [getAttrs_addDefNode]
  split
  · rfl
  · exact h

theorem isSome_addFileRecord (g : Graph) (fs : FileSymbols) (x : String)
    (h : (g.getAttrs x).isSome) :
    ((addFileRecord g fs).getAttrs x).isSome := by
  unfold addFileRecord
  refine foldl_preserve (f := addDefNode fs.file)
    (P := fun g' : Graph => (g'.getAttrs x).isSome)
    fs.definitions _ ?_ (isSome_mergeNode _ _ _ _ h)
  intro g' d _ hP
  exact isSome_addDefNode _ _ _ _ hP

theorem isSome_addFileRecord_def (g : Graph) (fs : FileSymbols) (d : Defn)
    (hd : d ∈ fs.definitions) :
    ((addFileRecord g fs).getAttrs (symbolKey fs.file d.name)).isSome := by
  unfold addFileRecord
  obtain ⟨s, t, hds⟩ := List.append_of_mem hd
  rw [hds, List.foldl_append, List.foldl_cons]
  refine foldl_preserve (f := addDefNode fs.file)
    (P := fun g' : Graph =>
      ((g'.getAttrs (symbolKey fs.file d.name)).isSome))
    t _ ?_ ?_
  · intro g' d' _ hP
    exact isSome_addDefNode _ _ _ _ hP
  · dsimp only
    rw [getAttrs_addDefNode, if_pos rfl]
    rfl

/-- Throughout the definitions phase, any attribute record stored at a
symbol key carries the key's own file. -/
theorem fileValue_addFileRecord (g : Graph) (fs' : FileSymbols)
    (f nm : String) (hgf : goodFile f) (hgood : goodFile fs'.file)
    (hP : ∀ a, g.getAttrs (symbolKey f nm) = some a → a.file = some f) :
    ∀ a, (addFileRecord g fs').getAttrs (symbolKey f nm) = some a →
      a.file = some f := by
  unfold addFileRecord
  refine foldl_preserve (f := addDefNode fs'.file)
    (P := fun g' : Graph =>
      ∀ a, g'.getAttrs (symbolKey f nm) = some a → a.file = some f)
    fs'.definitions _ ?_ ?_
  · intro g' d _ hP' a ha
    rw [getAttrs_addDefNode] at ha
    by_cases hk : symbolKey f nm = symbolKey fs'.file d.name
    · rw [if_pos hk] at ha
      obtain ⟨hf, -⟩ := symbolKey_inj hgf.1 hgood.1 hk
      cases hga : g'.getAttrs (symbolKey fs'.file d.name) with
      | none =>
        rw [hga] at ha
        have : a = symbolAttrsP d fs'.file := by simpa using ha.symm
        rw [this, ← hf]
        rfl
      | some a₀ =>
        rw [hga] at ha
        have : a = mergeAttrs a₀ (symbolAttrsP d fs'.file) := by
          simpa using ha.symm
        rw [this, ← hf]
        rfl
    · rw [if_neg hk] at ha
      exact hP' a ha
  · intro a ha
    rw [getAttrs_mergeNode_ne _ _ _ _
      (Ne.symm (goodFile_ne_symbolKey hgood))] at ha
    exact hP a ha

/-- In `defsPhase X` every definition's symbol node carries its owning
file as `file` attribute. -/
theorem defsPhase_fileAttr_def (X : List FileSymbols) (hwf : WfInput X)
    (fs : FileSymbols) (hfs : fs ∈ X) (d : Defn) (hd : d ∈ fs.definitions) :
    (defsPhase X).fileAttr (symbolKey fs.file d.name) = some fs.file := by
  have hgf : goodFile fs.file := hwf fs hfs
  have hval : ∀ a, (defsPhase X).getAttrs (symbolKey fs.file d.name) =
      some a → a.file = some fs.file := by
    unfold defsPhase
    refine foldl_preserve (f := addFileRecord)
      (P := fun g : Graph => ∀ a,
        g.getAttrs (symbolKey fs.file d.name) = some a →
          a.file = some fs.file)
      X Graph.empty ?_ ?_
    · intro g fs' hm hP
      exact fileValue_addFileRecord g fs' fs.file d.name hgf (hwf fs' hm) hP
    · intro a ha
      cases ha
  have hsome : ((defsPhase X).getAttrs (symbolKey fs.file d.name)).isSome := by
    obtain ⟨s, t, hX⟩ := List.append_of_mem hfs
    rw [hX]
    unfold defsPhase
    rw [List.foldl_append, List.foldl_cons]
    refine foldl_preserve (f := addFileRecord)
      (P := fun g : Graph =>
        (g.getAttrs (symbolKey fs.file d.name)).isSome)
      t _ ?_ (isSome_addFileRecord_def _ _ _ hd)
    intro g fs' _ hP
    exact isSome_addFileRecord _ _ _ hP
  obtain ⟨a, ha⟩ := Option.isSome_iff_exists.mp hsome
  rw [fileAttr_eq_some]
  exact ⟨a, ha, hval a ha⟩

/-- Every key stored in `buildDefIndex X` is a definition's symbol key. -/
theorem buildDefIndex_keys (X : List FileSymbols) :
    ∀ nm T, indexLookup (buildDefIndex X) nm = some T → ∀ t ∈ T,
      ∃ fs, fs ∈ X ∧ ∃ d, d ∈ fs.definitions ∧
        t = symbolKey fs.file d.name := by
  unfold buildDefIndex
  refine foldl_preserve
    (f := fun idx fs => fs.definitions.foldl
      (fun idx d => indexAdd idx d.name (symbolKey fs.file d.name)) idx)
    (P := fun idx => ∀ nm T, indexLookup idx nm = some T → ∀ t ∈ T,
      ∃ fs, fs ∈ X ∧ ∃ d, d ∈ fs.definitions ∧
        t = symbolKey fs.file d.name)
    X [] ?_ ?_
  · intro idx fs hm hP
    refine foldl_preserve
      (f := fun idx d => indexAdd idx d.name (symbolKey fs.file d.name))
      (P := fun idx => ∀ nm T, indexLookup idx nm = some T → ∀ t ∈ T,
        ∃ fs, fs ∈ X ∧ ∃ d, d ∈ fs.definitions ∧
          t = symbolKey fs.file d.name)
      fs.definitions idx ?_ hP
    intro idx' d hd hP' nm T hlook t ht
    rcases indexAdd_lookup_mem idx' d.name (symbolKey fs.file d.name)
      nm T t hlook ht with h1 | ⟨T₀, hT₀, ht₀⟩
    · exact ⟨fs, hm, d, hd, h1⟩
    · exact hP' nm T₀ hT₀ t ht₀
  · intro nm T hlook
    cases hlook

theorem disambiguate_sublist (T : List String) (F : String) (g : Graph) :
    ∀ t ∈ disambiguateTargets T F g, t ∈ T := by
  intro t ht
  unfold disambiguateTargets at ht
  split at ht
  · exact ht
  · dsimp only at ht
    split at ht
    · exact (List.mem_filter.mp ht).1
    · split at ht
      · cases ht
      · exact ht

/-- Combined wiring invariant: graph well-formedness plus soundness of the
two dedup sets. -/
def WireInv (st : WireState) : Prop :=
  GInv st.graph ∧ RefSound st ∧ ImpSound st

theorem wireTarget_WireInv (F t0 : String) (hFg : goodFile F)
    (st : WireState) (h : WireInv st)
    (hsome : (st.graph.fileAttr t0).isSome) :
    WireInv (wireTarget F st t0) :=
  ⟨wireTarget_GInv F hFg st t0 h.1 h.2.2 hsome,
   wireTarget_refSound F hFg.2 st t0 h.2.1,
   wireTarget_impSound F hFg.2 st t0 h.2.2⟩

theorem wireRef_WireInv (idx : List (String × List String)) (F : String)
    (r : Ref) (st : WireState) (hFg : goodFile F) (h : WireInv st)
    (hidx : ∀ T, indexLookup idx r.name = some T → ∀ t ∈ T,
      (st.graph.fileAttr t).isSome) :
    WireInv (wireRef idx F st r) := by
  unfold wireRef
  cases hlook : indexLookup idx r.name with
  | none => exact h
  | some T =>
    have hres := foldl_preserve (f := wireTarget F)
      (P := fun s : WireState =>
        WireInv s ∧ s.graph.nodes = st.graph.nodes)
      (disambiguateTargets T F st.graph) st ?_ ⟨h, rfl⟩
    · exact hres.1
    · intro s t ht hs
      refine ⟨wireTarget_WireInv F t hFg s hs.1 ?_, ?_⟩
      · rw [show s.graph.fileAttr t = st.graph.fileAttr t from
          fileAttr_congr_nodes _ _ hs.2 t]
        exact hidx T hlook t (disambiguate_sublist T F st.graph t ht)
      · show (wireTarget F s t).graph.nodes = st.graph.nodes
        rw [wireTarget_nodes]
        exact hs.2

theorem GInv_addFileRecord (g : Graph) (fs : FileSymbols)
    (hgood : goodFile fs.file) (hg : GInv g) : GInv (addFileRecord g fs) := by
  unfold addFileRecord
  refine foldl_preserve (f := addDefNode fs.file) (P := GInv)
    fs.definitions _ ?_ (GInv_mergeNode_fileAttrsP _ _ _ hg)
  intro g' d _ hP
  show GInv (addDefNode fs.file g' d)
  unfold addDefNode
  exact GInv_addDefinesEdge _ _ _
    (GInv_mergeNode_symbolAttrsP g' d fs.file hgood hP)

theorem GInv_defsPhase (X : List FileSymbols) (hwf : WfInput X) :
    GInv (defsPhase X) := by
  unfold defsPhase
  refine foldl_preserve (f := addFileRecord) (P := GInv) X Graph.empty
    ?_ GInv_empty
  intro g fs hm hP
  exact GInv_addFileRecord g fs (hwf fs hm) hP

theorem RefSound_start (g : Graph) : RefSound ⟨g, [], []⟩ := by
  intro f t _ hmem
  cases hmem

theorem ImpSound_start (g : Graph) : ImpSound ⟨g, [], []⟩ := by
  intro f t _ hmem
  cases hmem

theorem buildGraph_GInv (X : List FileSymbols) (hwf : WfInput X) :
    GInv (buildGraph X) := by
  unfold buildGraph
  have hidx0 : ∀ nm T, indexLookup (buildDefIndex X) nm = some T →
      ∀ t ∈ T, ((defsPhase X).fileAttr t).isSome := by
    intro nm T h t ht
    obtain ⟨fs, hfs, d, hd, rfl⟩ := buildDefIndex_keys X nm T h t ht
    rw [defsPhase_fileAttr_def X hwf fs hfs d hd]
    rfl
  have hres := foldl_preserve (f := wireRecord (buildDefIndex X))
    (P := fun st : WireState =>
      WireInv st ∧ st.graph.nodes = (defsPhase X).nodes)
    X ⟨defsPhase X, [], []⟩ ?_
    ⟨⟨GInv_defsPhase X hwf, RefSound_start _, ImpSound_start _⟩, rfl⟩
  · exact hres.1.1
  · intro st fs hm hst
    have hgood : goodFile fs.file := hwf fs hm
    unfold wireRecord
    refine foldl_preserve (f := wireRef (buildDefIndex X) fs.file)
      (P := fun s : WireState =>
        WireInv s ∧ s.graph.nodes = (defsPhase X).nodes)
      fs.references st ?_ hst
    intro s r _ hs
    refine ⟨wireRef_WireInv _ _ _ _ hgood hs.1 ?_, ?_⟩
    · intro T hlook t ht
      rw [show s.graph.fileAttr t = (defsPhase X).fileAttr t from
        fileAttr_congr_nodes _ _ hs.2 t]
      exact hidx0 r.name T hlook t ht
    · show (wireRef (buildDefIndex X) fs.file s r).graph.nodes = _
      rw [wireRef_nodes]
      exact hs.2

theorem fileAttr_isSome_mergeNode (g : Graph) (id : String) (u : Attrs)
    (x : String) (h : (g.fileAttr x).isSome) :
    ((g.mergeNode id u).fileAttr x).isSome := by
  by_cases hx : x = id
  · subst hx
    obtain ⟨tf, htf⟩ := Option.isSome_iff_exists.mp h
    obtain ⟨a, hga, haf⟩ := (fileAttr_eq_some _ _ _).mp htf
    unfold Graph.fileAttr
    rw [getAttrs_mergeNode_self, hga]
    cases hu : u.file with
    | none => simp [mergeAttrs, hu, haf]
    | some f' => simp [mergeAttrs, hu]
  · unfold Graph.fileAttr
    rw [getAttrs_mergeNode_ne _ _ _ _ hx]
    exact h

/-- Index entries rebuilt from the graph are symbol node ids. -/
theorem graphDefIndex_keys (g : Graph) :
    ∀ nm T, indexLookup (graphDefIndex g) nm = some T → ∀ t ∈ T,
      ∃ a, (t, a) ∈ g.nodes ∧ a.type = some "symbol" := by
  unfold graphDefIndex
  refine foldl_preserve
    (f := fun idx p =>
      if p.2.type == some "symbol" then
        match p.2.name with
        | some nm => indexAdd idx nm p.1
        | none => idx
      else idx)
    (P := fun idx => ∀ nm T, indexLookup idx nm = some T → ∀ t ∈ T,
      ∃ a, (t, a) ∈ g.nodes ∧ a.type = some "symbol")
    g.nodes [] ?_ ?_
  · intro idx p hp hP nm T hlook t ht
    dsimp only at hlook
    by_cases hty : (p.2.type == some "symbol") = true
    · rw [if_pos hty] at hlook
      cases hname : p.2.name with
      | none =>
        rw [hname] at hlook
        exact hP nm T hlook t ht
      | some nm' =>
        rw [hname] at hlook
        rcases indexAdd_lookup_mem idx nm' p.1 nm T t hlook ht with
          h1 | ⟨T₀, hT₀, ht₀⟩
        · subst h1
          exact ⟨p.2, by rw [show (p.1, p.2) = p from rfl]; exact hp,
            eq_of_beq hty⟩
        · exact hP nm T₀ hT₀ t ht₀
    · rw [if_neg hty] at hlook
      exact hP nm T hlook t ht
  · intro nm T hlook
    cases hlook

/-- The rebuilt index is good for the graph: every stored id carries a
`file` attribute. -/
def IdxOk (idx : List (String × List String)) (g : Graph) : Prop :=
  ∀ nm T, indexLookup idx nm = some T → ∀ t ∈ T, (g.fileAttr t).isSome

theorem IdxOk_graphDefIndex (g : Graph) (hg : GInv g) :
    IdxOk (graphDefIndex g) g := by
  intro nm T hlook t ht
  obtain ⟨a, hmem, hty⟩ := graphDefIndex_keys g nm T hlook t ht
  obtain ⟨f, hf⟩ := hg.symFile _ _ hmem hty
  have : g.fileAttr t = some f := by
    rw [fileAttr_eq_some]
    refine ⟨a, ?_, hf⟩
    unfold Graph.getAttrs
    rw [assoc_find_unique _ _ _ hg.nodupIds hmem]
    rfl
  rw [this]
  rfl

theorem updateGraphFiles_GInv (g : Graph) (R : List String)
    (N : List FileSymbols) (hg : GInv g) (hwfN : WfInput N) :
    GInv (updateGraphFiles g R N) := by
  unfold updateGraphFiles
  have hg1 : GInv (R.foldl Graph.dropFileNodes g) :=
    foldl_preserve (f := Graph.dropFileNodes) (P := GInv) R g
      (fun g' p _ h => GInv_dropFileNodes g' p h) hg
  have hres := foldl_preserve (f := updateRecord)
    (P := fun acc : WireState × List (String × List String) =>
      WireInv acc.1 ∧ IdxOk acc.2 acc.1.graph)
    N (⟨R.foldl Graph.dropFileNodes g, [], []⟩,
       graphDefIndex (R.foldl Graph.dropFileNodes g)) ?_
    ⟨⟨hg1, RefSound_start _, ImpSound_start _⟩,
      IdxOk_graphDefIndex _ hg1⟩
  · exact hres.1.1
  · intro acc fs hm hacc
    obtain ⟨⟨hgst, hrs, his⟩, hidx⟩ := hacc
    have hgood : goodFile fs.file := hwfN fs hm
    unfold updateRecord
    dsimp only
    set gi := fs.definitions.foldl
      (fun (gi : Graph × List (String × List String)) d =>
        ((gi.1.mergeNode (symbolKey fs.file d.name)
            (symbolAttrsP d fs.file)).addTypedEdge
          fs.file (symbolKey fs.file d.name) "DEFINES",
         indexAdd gi.2 d.name (symbolKey fs.file d.name)))
      (acc.1.graph.mergeNode fs.file (fileAttrsP fs.definitions.length),
        acc.2) with hgidef
    have hdefs : GInv gi.1 ∧ IdxOk gi.2 gi.1 ∧
        ∀ e ∈ acc.1.graph.edges, e ∈ gi.1.edges := by
      rw [hgidef]
      refine foldl_preserve
        (f := fun (gi : Graph × List (String × List String)) d =>
          ((gi.1.mergeNode (symbolKey fs.file d.name)
              (symbolAttrsP d fs.file)).addTypedEdge
            fs.file (symbolKey fs.file d.name) "DEFINES",
           indexAdd gi.2 d.name (symbolKey fs.file d.name)))
        (P := fun gi : Graph × List (String × List String) =>
          GInv gi.1 ∧ IdxOk gi.2 gi.1 ∧
          ∀ e ∈ acc.1.graph.edges, e ∈ gi.1.edges)
        fs.definitions _ ?_ ?_
      · intro gi' d _ hQ
        obtain ⟨hQg, hQi, hQe⟩ := hQ
        dsimp only
        refine ⟨?_, ?_, ?_⟩
        · exact GInv_addDefinesEdge _ _ _
            (GInv_mergeNode_symbolAttrsP gi'.1 d fs.file hgood hQg)
        · intro nm T hlook t ht
          rw [fileAttr_addTypedEdge]
          rcases indexAdd_lookup_mem gi'.2 d.name (symbolKey fs.file d.name)
            nm T t hlook ht with h1 | ⟨T₀, hT₀, ht₀⟩
          · subst h1
            rw [fileAttr_mergeNode_symbolAttrsP_self]
            rfl
          · exact fileAttr_isSome_mergeNode _ _ _ _ (hQi nm T₀ hT₀ t ht₀)
        · intro e he
          rw [edges_addTypedEdge, edges_mergeNode]
          exact List.mem_append_left _ (hQe e he)
      · refine ⟨GInv_mergeNode_fileAttrsP _ _ _ hgst, ?_, ?_⟩
        · intro nm T hlook t ht
          rw [show (acc.1.graph.mergeNode fs.file
              (fileAttrsP fs.definitions.length)).fileAttr t =
                acc.1.graph.fileAttr t from
              fileAttr_mergeNode_fileAttrsP _ _ _ _]
          exact hidx nm T hlook t ht
        · intro e he
          rw [edges_mergeNode]
          exact he
    obtain ⟨hgi, hidxi, hedges⟩ := hdefs
    have hwire := foldl_preserve (f := wireRef gi.2 fs.file)
      (P := fun s : WireState =>
        WireInv s ∧ s.graph.nodes = gi.1.nodes)
      fs.references { acc.1 with graph := gi.1 } ?_
      ⟨⟨hgi, ?_, ?_⟩, rfl⟩
    · exact ⟨hwire.1, by
        intro nm T hlook t ht
        rw [show (fs.references.foldl (wireRef gi.2 fs.file)
            { acc.1 with graph := gi.1 }).graph.fileAttr t =
              gi.1.fileAttr t from
            fileAttr_congr_nodes _ _ hwire.2 t]
        exact hidxi nm T hlook t ht⟩
    · intro s r _ hs
      refine ⟨wireRef_WireInv _ _ _ _ hgood hs.1 ?_, ?_⟩
      · intro T hlook t ht
        rw [show s.graph.fileAttr t = gi.1.fileAttr t from
          fileAttr_congr_nodes _ _ hs.2 t]
        exact hidxi r.name T hlook t ht
      · show (wireRef gi.2 fs.file s r).graph.nodes = _
        rw [wireRef_nodes]
        exact hs.2
    · intro f t hf hmem
      exact hedges _ (hrs f t hf hmem)
    · intro f t hf hmem
      exact hedges _ (his f t hf hmem)

/-- Graphs produced by the builder: a cold `buildGraph` over well-formed
records, followed by any sequence of `updateGraphFiles` calls with
well-formed fresh records. -/
inductive Produced : Graph → Prop where
  | build : ∀ X, WfInput X → Produced (buildGraph X)
  | update : ∀ g R N, Produced g → WfInput N → Produced (updateGraphFiles g R N)

theorem Produced_GInv (g : Graph) (h : Produced g) : GInv g := by
  induction h with
  | build X hwf => exact buildGraph_GInv X hwf
  | update g R N _ hwfN ih => exact updateGraphFiles_GInv g R N ih hwfN

/-- C4: In every graph produced by the builder (cold build or a sequence of
incremental updates), whenever a `REFERENCES` edge exists from file node
`F` to symbol node `s` with `s.file ≠ F`, an `IMPORTS` edge from `F` to
`s.file` also exists; and no `IMPORTS` edge from a file to itself ever
exists. -/
theorem C4_imports_invariant (g : Graph) (hp : Produced g) :
    (∀ F t tf,
      ({ src := F, tgt := t, type := some "REFERENCES" } : Edge) ∈ g.edges →
      g.fileAttr t = some tf → tf ≠ F →
      ({ src := F, tgt := tf, type := some "IMPORTS" } : Edge) ∈ g.edges) ∧
    (∀ F, ({ src := F, tgt := F, type := some "IMPORTS" } : Edge) ∉ g.edges) :=
  ⟨(Produced_GInv g hp).refImp, (Produced_GInv g hp).noSelfImp⟩

theorem C4_imports_invariant_witness :
    ({ src := "b", tgt := "a", type := some "IMPORTS" } : Edge) ∈
      (buildGraph c4simple).edges ∧
    ({ src := "q", tgt := "q", type := some "IMPORTS" } : Edge) ∉
      (updateGraphFiles (buildGraph c2prev) ["p"] [c2fresh]).edges := by
  have h1 := C4_imports_invariant (buildGraph c4simple)
    (Produced.build c4simple (by decide))
  have h2 := C4_imports_invariant
    (updateGraphFiles (buildGraph c2prev) ["p"] [c2fresh])
    (Produced.update _ ["p"] [c2fresh]
      (Produced.build c2prev (by decide)) (by decide))
  exact ⟨h1.1 "b" "a::f" "a" (by decide) (by decide) (by decide), h2.2 "q"⟩

/-- C2 (refuting demonstration): the incremental path does not reproduce
the cold build.  Previous inputs: `q` references `f`, which `p` defines.
Re-indexing `p` with an identical fresh record
(`update(removed=[p], added=[FSp])`) drops the `REFERENCES` edge from `q`
into `p::f` (and the matching `IMPORTS` edge), because `removeFileNodes`
deletes all edges incident to `p`'s nodes and the update never re-wires the
surviving files' references.  The cold build over the same inputs keeps the
edge, so the two graphs differ. -/
theorem C2_incremental_differs_from_cold :
    ({ src := "q", tgt := "p::f", type := some "REFERENCES" } : Edge) ∈
      (buildGraph c2prev).edges ∧
    ({ src := "q", tgt := "p::f", type := some "REFERENCES" } : Edge) ∉
      (updateGraphFiles (buildGraph c2prev) ["p"] [c2fresh]).edges ∧
    ({ src := "q", tgt := "p", type := some "IMPORTS" } : Edge) ∉
      (updateGraphFiles (buildGraph c2prev) ["p"] [c2fresh]).edges ∧
    updateGraphFiles (buildGraph c2prev) ["p"] [c2fresh] ≠ buildGraph c2prev := by
  decide

/-- C3 (refuting demonstration): a file whose definitions sequence contains
the same name twice produces a symbol node with two parallel incoming
`DEFINES` edges — `buildGraph` re-issues `graph.addEdge(file, key,
{type:'DEFINES'})` for the merged node, and a `MultiDirectedGraph` keeps
both parallel edges.  The claim's "exactly one incoming DEFINES edge"
fails on this input. -/
theorem C3_duplicate_name_two_defines :
    (buildGraph c3dup).typeAttr (symbolKey "a" "f") = some "symbol" ∧
    ((buildGraph c3dup).edges.filter
      (fun e => e ==
        { src := "a", tgt := symbolKey "a" "f", type := some "DEFINES" })).length
      = 2 := by
  decide

/-- C7 (counterexample): the claim says the cache file name is the first
16 hex characters of the SHA-256 digest; `cachePathForRoot` takes
`slice(0, 12)` — only 12.  At the digest of `/home/user/project` the two
names differ. -/
theorem C7_hex16_counterexample :
    cachePathForRoot sampleDigestHex "/tmp/cache" "/home/user/project" ≠
      "/tmp/cache/" ++ (sampleDigestHex "/home/user/project").take 16 ++
        ".json" ∧
    cachePathForRoot sampleDigestHex "/tmp/cache" "/home/user/project" =
      "/tmp/cache/9dad1e4e08b0.json" := by
  decide

/-- C7 (amended): the persisted cache file is stored under the cache
directory with a name equal to the first 12 hex characters of the SHA-256
digest of the root path followed by `".json"`. -/
theorem C7_cache_name_12hex (digestHex : String → String)
    (cacheDir projectRoot : String) :
    cachePathForRoot digestHex cacheDir projectRoot =
      cacheDir ++ "/" ++ ((digestHex projectRoot).take 12 ++ ".json") := by
  unfold cachePathForRoot
  apply string_eq_of_data
  simp [String.data_append]

/-- C8: ranking works on a copy and returns the authoritative graph
untouched: no node, edge or attribute of the input graph is added, removed
or modified, and the virtual `__focus__` node appears only in the working
copy. -/
theorem C8_ranking_preserves_graph (pr : Graph → List (String × ℚ))
    (graph : Graph) (focusFiles : List String) (tiers : List PathTier) :
    ((rankedSymbolsRun pr graph focusFiles tiers).2.nodes = graph.nodes ∧
     (rankedSymbolsRun pr graph focusFiles tiers).2.edges = graph.edges) ∧
    (focusFiles ≠ [] →
      (focusedWorking graph focusFiles).hasNode "__focus__" = true) := by
  constructor
  · unfold rankedSymbolsRun
    split
    · exact ⟨rfl, rfl⟩
    · exact ⟨rfl, rfl⟩
  · intro hne
    unfold focusedWorking graphCopy
    rw [if_pos (List.length_pos.mpr hne)]
    have hstart : (graph.mergeNode "__focus__"
        { type := some "virtual" }).hasNode "__focus__" = true := by
      unfold Graph.hasNode
      have := getAttrs_mergeNode_self graph "__focus__"
        { type := some "virtual" }
      unfold Graph.getAttrs at this
      cases hf : (graph.mergeNode "__focus__"
          { type := some "virtual" }).nodes.find?
            (fun p => p.1 == "__focus__") with
      | none =>
        rw [hf] at this
        cases this
      | some p => rfl
    refine foldl_preserve
      (f := fun gg f =>
        if gg.hasNode f then gg.addWeightedEdge "__focus__" f 10 else gg)
      (P := fun gg : Graph => gg.hasNode "__focus__" = true)
      focusFiles _ ?_ hstart
    intro gg f _ hP
    dsimp only
    split
    · exact hP
    · exact hP

theorem C8_ranking_preserves_graph_witness :
    ((rankedSymbolsRun (fun _ => []) (buildGraph c2prev) ["q"]
        DEFAULT_PATH_TIERS).2.nodes = (buildGraph c2prev).nodes ∧
     (rankedSymbolsRun (fun _ => []) (buildGraph c2prev) ["q"]
        DEFAULT_PATH_TIERS).2.edges = (buildGraph c2prev).edges) ∧
    (focusedWorking (buildGraph c2prev) ["q"]).hasNode "__focus__" = true := by
  have h := C8_ranking_preserves_graph (fun _ => []) (buildGraph c2prev)
    ["q"] DEFAULT_PATH_TIERS
  exact ⟨h.1, h.2 (by decide)⟩

theorem mem_insertDescOn {α : Type _} (f : α → ℚ) (x a : α) :
    ∀ l : List α, a ∈ insertDescOn f x l ↔ a = x ∨ a ∈ l := by
  intro l
  induction l with
  | nil => simp [insertDescOn]
  | cons y ys ih =>
    unfold insertDescOn
    split
    · simp [List.mem_cons]
    · simp only [List.mem_cons, ih]
      tauto

theorem mem_sortDescOn {α : Type _} (f : α → ℚ) (a : α) :
    ∀ (l acc : List α),
      (a ∈ l.foldl (fun acc x => insertDescOn f x acc) acc ↔
        a ∈ acc ∨ a ∈ l) := by
  intro l
  induction l with
  | nil => simp
  | cons x xs ih =>
    intro acc
    simp only [List.foldl_cons, ih, mem_insertDescOn, List.mem_cons]
    tauto

theorem mem_sortDescOn' {α : Type _} (f : α → ℚ) (a : α) (l : List α) :
    a ∈ sortDescOn f l ↔ a ∈ l := by
  unfold sortDescOn
  rw [mem_sortDescOn]
  simp

/-- `getPathWeight` is "first matching tier wins, default 1". -/
theorem getPathWeight_first_match (fp : String) :
    ∀ tiers : List PathTier,
      getPathWeight fp tiers =
        (((tiers.find? (fun t => tierMatches fp t)).map
          (fun t => t.weight)).getD 1) := by
  intro tiers
  induction tiers with
  | nil => rfl
  | cons t ts ih =>
    unfold getPathWeight
    cases hm : tierMatches fp t with
    | true => simp [List.find?, hm]
    | false =>
      simp only [hm, List.find?, ih]
      rw [if_neg (by simp)]

/-- C5: symbols with identical PageRank centrality in `src/foo.ts` and
`tests/foo.ts` get adjusted scores in ratio `1 : 0.2` under the default
tier table; in general every symbol's score is multiplied by the weight of
the first tier pattern matching its file (as a path prefix or
`/`-separated segment prefix), defaulting to `1.0`. -/
theorem C5_path_tier_dampening :
    getPathWeight "src/foo.ts" DEFAULT_PATH_TIERS = 1 ∧
    getPathWeight "tests/foo.ts" DEFAULT_PATH_TIERS = 1/5 ∧
    (∀ (g : Graph) (scores : List (String × ℚ)) (k1 k2 : String) (s : ℚ),
      g.typeAttr k1 = some "symbol" → g.fileAttr k1 = some "src/foo.ts" →
      g.typeAttr k2 = some "symbol" → g.fileAttr k2 = some "tests/foo.ts" →
      (k1, s) ∈ scores → (k2, s) ∈ scores →
      (k1, s) ∈ rankedScores g scores DEFAULT_PATH_TIERS ∧
      (k2, (1/5) * s) ∈ rankedScores g scores DEFAULT_PATH_TIERS) ∧
    (∀ (g : Graph) (tiers : List PathTier) (scores : List (String × ℚ))
      (k : String) (s : ℚ) (f : String),
      g.typeAttr k = some "symbol" → (k, s) ∈ scores →
      g.fileAttr k = some f →
      (k, s * getPathWeight f tiers) ∈ rankedScores g scores tiers) ∧
    (∀ (fp : String) (tiers : List PathTier),
      getPathWeight fp tiers =
        (((tiers.find? (fun t => tierMatches fp t)).map
          (fun t => t.weight)).getD 1)) := by
  have hgen : ∀ (g : Graph) (tiers : List PathTier)
      (scores : List (String × ℚ)) (k : String) (s : ℚ) (f : String),
      g.typeAttr k = some "symbol" → (k, s) ∈ scores →
      g.fileAttr k = some f →
      (k, s * getPathWeight f tiers) ∈ rankedScores g scores tiers := by
    intro g tiers scores k s f hty hmem hfa
    unfold rankedScores
    rw [mem_sortDescOn']
    refine List.mem_map.mpr ⟨(k, s), ?_, ?_⟩
    · exact List.mem_filter.mpr ⟨hmem, by simp [hty]⟩
    · unfold dampenEntry
      rw [hfa]
  refine ⟨by decide, rfl, ?_, hgen, getPathWeight_first_match⟩
  intro g scores k1 k2 s hty1 hfa1 hty2 hfa2 hm1 hm2
  constructor
  · have := hgen g DEFAULT_PATH_TIERS scores k1 s "src/foo.ts" hty1 hm1 hfa1
    rw [show getPathWeight "src/foo.ts" DEFAULT_PATH_TIERS = 1 from by decide,
      mul_one] at this
    exact this
  · have := hgen g DEFAULT_PATH_TIERS scores k2 s "tests/foo.ts" hty2 hm2 hfa2
    rw [show getPathWeight "tests/foo.ts" DEFAULT_PATH_TIERS = 1/5 from rfl,
      mul_comm] at this
    exact this

theorem C5_path_tier_dampening_witness :
    ("src/foo.ts::a", (3 : ℚ)) ∈
      rankedScores (buildGraph
        [⟨"src/foo.ts", [⟨"a", "function", 1, 2, "a()"⟩], []⟩,
         ⟨"tests/foo.ts", [⟨"b", "function", 1, 2, "b()"⟩], []⟩])
        [("src/foo.ts::a", 3), ("tests/foo.ts::b", 3)]
        DEFAULT_PATH_TIERS ∧
    ("tests/foo.ts::b", (1/5 : ℚ) * 3) ∈
      rankedScores (buildGraph
        [⟨"src/foo.ts", [⟨"a", "function", 1, 2, "a()"⟩], []⟩,
         ⟨"tests/foo.ts", [⟨"b", "function", 1, 2, "b()"⟩], []⟩])
        [("src/foo.ts::a", 3), ("tests/foo.ts::b", 3)]
        DEFAULT_PATH_TIERS := by
  have h := C5_path_tier_dampening
  exact h.2.2.1 (buildGraph
      [⟨"src/foo.ts", [⟨"a", "function", 1, 2, "a()"⟩], []⟩,
       ⟨"tests/foo.ts", [⟨"b", "function", 1, 2, "b()"⟩], []⟩])
    [("src/foo.ts::a", 3), ("tests/foo.ts::b", 3)]
    "src/foo.ts::a" "tests/foo.ts::b" 3
    (by decide) (by decide) (by decide) (by decide)
    (by decide) (by decide)

theorem collapseRangesOf_none (defs : List OutlineDef)
    (h : ∀ d ∈ defs, d.bodyStartLine = none) :
    collapseRangesOf defs = [] := by
  have h1 : ∀ l : List CollapseRange, l = [] →
      sortAscOn (fun r => r.start) l = [] := by
    rintro l rfl
    rfl
  unfold collapseRangesOf
  apply h1
  rw [List.filterMap_eq_nil]
  intro d hd
  rw [h d hd]
  split <;> rfl

theorem renderOutline_no_ranges (lines : List String) (pad : Nat) :
    ∀ (fuel n : Nat), lines.length < n + fuel → 1 ≤ n →
      renderOutline lines pad fuel [] n =
        ((lines.drop (n - 1)).enumFrom n).map
          (fun p => numberedLine pad p.1 p.2) := by
  intro fuel
  induction fuel with
  | zero =>
    intro n hlt hn
    rw [List.drop_eq_nil_of_le (Nat.le_sub_one_of_lt (by omega))]
    rfl
  | succ f ih =>
    intro n hlt hn
    show (if n ≤ lines.length then
        numberedLine pad n ((lines.get? (n - 1)).getD "")
          :: renderOutline lines pad f [] (n + 1)
      else []) = _
    by_cases hle : n ≤ lines.length
    · rw [if_pos hle, ih (n + 1) (by omega) (by omega)]
      have hidx : n - 1 < lines.length := by omega
      rw [List.drop_eq_getElem_cons hidx, show n - 1 + 1 = n from by omega,
        List.enumFrom_cons, List.map_cons]
      congr 1
      rw [List.get?_eq_getElem?, List.getElem?_eq_getElem hidx,
        Option.getD_some]
    · rw [if_neg hle,
        List.drop_eq_nil_of_le (Nat.le_sub_one_of_lt (by omega))]
      rfl

theorem map_enumFrom_shift (pad : Nat) :
    ∀ (l : List String) (k : Nat),
      (l.enumFrom (k + 1)).map (fun p => numberedLine pad p.1 p.2) =
      (l.enumFrom k).map (fun p => numberedLine pad (p.1 + 1) p.2) := by
  intro l
  induction l with
  | nil => intro k; rfl
  | cons a as ih =>
    intro k
    rw [List.enumFrom_cons, List.enumFrom_cons, List.map_cons,
      List.map_cons, ih (k + 1)]

theorem outlineMode_verbatim (lines : List String) (defs : List OutlineDef)
    (pad : Nat) (h : ∀ d ∈ defs, d.bodyStartLine = none) :
    outlineMode lines defs pad = rawViewLines lines pad := by
  unfold outlineMode
  rw [collapseRangesOf_none defs h]
  dsimp only
  rw [renderOutline_no_ranges lines pad _ 1
    (by simp only [List.length_nil]; omega) (by omega)]
  rw [show (1 : Nat) - 1 = 0 from rfl, List.drop_zero]
  rw [map_enumFrom_shift pad lines 0]
  rfl

/-- C6: the spec says outline mode replaces every leaf definition body of
at least `MIN_COLLAPSE_LINES` (2) lines with a `"... (N lines)"` marker.
In the code this never happens on parser output: `parseFile` stores no
`bodyStartLine` on any definition, every collapse range is therefore
discarded, and `outlineMode` renders the file verbatim — witnessed
concretely by a three-line leaf definition whose two-line body the claim
requires to be collapsed, yet whose outline equals the raw numbered view
and contains no `"... ("` marker. -/
theorem C6_outline_never_collapses :
    (∀ (lines : List String) (defs : List OutlineDef) (pad : Nat),
      (∀ d ∈ defs, d.bodyStartLine = none) →
      outlineMode lines defs pad = rawViewLines lines pad) ∧
    outlineMode c6lines c6defs 4 = rawViewLines c6lines 4 ∧
    (∀ s ∈ outlineMode c6lines c6defs 4, strIncludes s "... (" = false) ∧
    isContainer c6defs ⟨"f", 1, 3, none⟩ = false ∧
    MIN_COLLAPSE_LINES ≤ 3 - 2 + 1 := by
  refine ⟨outlineMode_verbatim, ?_, ?_, by decide, by decide⟩
  · exact outlineMode_verbatim c6lines c6defs 4 (by decide)
  · decide

theorem C6_outline_never_collapses_witness :
    outlineMode c6lines c6defs 4 = rawViewLines c6lines 4 :=
  C6_outline_never_collapses.1 c6lines c6defs 4 (by decide)

/-- C9: when `dependencies`, `dependents` or `neighborhood` is queried with
a file that is not a node of the graph, the response carries
`fileNotFound: true`, a suggestions list of at most five file nodes
matched case-insensitively by basename or path substring, and an empty
item list (zero totals in count mode). -/
theorem C9_unknown_file (g : Graph) (fileScores ranked : List (String × ℚ))
    (file : String) (offset limit : Option Nat) (hops : Nat)
    (incDeps : Bool) (maxFiles : Nat)
    (h : g.hasNode file = false) :
    dependencies g fileScores file offset limit false =
      { items := some [], fileNotFound := some true,
        suggestions := some (findSimilarFiles g file 5) } ∧
    dependencies g fileScores file offset limit true =
      { total := some 0, fileNotFound := some true,
        suggestions := some (findSimilarFiles g file 5) } ∧
    dependents g fileScores file offset limit false =
      { items := some [], fileNotFound := some true,
        suggestions := some (findSimilarFiles g file 5) } ∧
    dependents g fileScores file offset limit true =
      { total := some 0, fileNotFound := some true,
        suggestions := some (findSimilarFiles g file 5) } ∧
    neighborhood g ranked file hops incDeps maxFiles false offset limit =
      { files := some [], symbols := some [], edges := some [],
        fileNotFound := some true,
        suggestions := some (findSimilarFiles g file 5) } ∧
    neighborhood g ranked file hops incDeps maxFiles true offset limit =
      { totalFiles := some 0, totalSymbols := some 0, totalEdges := some 0,
        fileNotFound := some true,
        suggestions := some (findSimilarFiles g file 5) } ∧
    (findSimilarFiles g file 5).length ≤ 5 ∧
    (∀ x ∈ findSimilarFiles g file 5, ∃ a,
      (x, a) ∈ g.nodes ∧ a.type = some "file" ∧
      similarMatch file x = true) := by
  refine ⟨?_, ?_, ?_, ?_, ?_, ?_, ?_, ?_⟩
  · simp [dependencies, h]
  · simp [dependencies, h]
  · simp [dependents, h]
  · simp [dependents, h]
  · simp [neighborhood, h]
  · simp [neighborhood, h]
  · exact List.length_take_le _ _
  · intro x hx
    have hx' := List.mem_of_mem_take hx
    obtain ⟨p, hp, hpx⟩ := List.mem_map.mp hx'
    obtain ⟨hmem, hpred⟩ := List.mem_filter.mp hp
    rw [Bool.and_eq_true] at hpred
    obtain ⟨ht, hs⟩ := hpred
    refine ⟨p.2, ?_, eq_of_beq ht, by rw [← hpx]; exact hs⟩
    rw [← hpx]
    simpa using hmem

theorem C9_unknown_file_witness :
    (buildGraph c2prev).hasNode "P" = false ∧
    dependencies (buildGraph c2prev) [] "P" none none false =
      { items := some [], fileNotFound := some true,
        suggestions := some (findSimilarFiles (buildGraph c2prev) "P" 5) } ∧
    (findSimilarFiles (buildGraph c2prev) "P" 5).length ≤ 5 ∧
    findSimilarFiles (buildGraph c2prev) "P" 5 = ["p"] := by
  have h := C9_unknown_file (buildGraph c2prev) [] [] "P" none none 2
    false 15 (by decide)
  exact ⟨by decide, h.1, h.2.2.2.2.2.2.1, by decide⟩
